import Mathlib

/-!
# Verification of the spatial line clustering pipeline

Shallow embedding of `src/spatial_line_cluster/spatial_line_cluster.py`
(class `SpatialLineCluster`) and of the geometric semantics its external
collaborators (shapely / geopandas / networkx) provide, together with proofs
of the specification's testable properties.

Modelling conventions:
* coordinates are exact rationals (`ℚ`), distances and lengths live in `ℝ`;
* a geometry is its ordered vertex sequence (`List (ℚ × ℚ)`): a point is a
  one-element list, a line string a list with at least two vertices, and the
  empty list is the empty geometry;
* `DataFrame` indices are the positional indices `0, …, n-1` (the default
  integer range index, for which the label `i` of `iterrows` and the
  positional index `j` returned by the spatial index coincide);
* the dilation-intersection test `geom.buffer(t).intersects(geom_j)` of the
  source is modelled exactly: for point/line geometries `buffer t` with
  `t ≤ 0` is the empty region (never intersects anything), and with `t > 0`
  it is the closed `t`-neighbourhood, which meets the other geometry iff the
  minimum squared separation of the two vertex chains is at most `t²`; that
  minimum is computed exactly by rational segment-pair distance minimisation;
* Python exceptions are represented by `Except` with the error kind recorded
  as a constructor of `PyErr`.
-/

/-- A planar point with exact rational coordinates. -/
abbrev Pt := ℚ × ℚ

/-- A geometry: the ordered vertex sequence of a point / line string. -/
abbrev Geom := List Pt

/-- Dot product of two rational vectors. -/
def dotQ (u v : Pt) : ℚ := u.1 * v.1 + u.2 * v.2

/-- 2-D cross product (signed area) of two rational vectors. -/
def crossQ (u v : Pt) : ℚ := u.1 * v.2 - u.2 * v.1

/-- Squared euclidean distance between two rational points. -/
def sqDistQ (p q : Pt) : ℚ := (p.1 - q.1) ^ 2 + (p.2 - q.2) ^ 2

/-- Clamp a rational number into `[0, 1]`. -/
def clamp01 (x : ℚ) : ℚ := max 0 (min 1 x)

/-- The point `c + u • (d - c)` of the segment from `c` to `d`. -/
def lerpQ (c d : Pt) (u : ℚ) : Pt := (c.1 + u * (d.1 - c.1), c.2 + u * (d.2 - c.2))

/-- Exact squared distance from the point `p` to the segment `[c, d]`,
via the clamped orthogonal-projection parameter. -/
def ptSegSq (p c d : Pt) : ℚ :=
  if sqDistQ d c = 0 then sqDistQ p c
  else
    sqDistQ p (lerpQ c d (clamp01 (dotQ (p.1 - c.1, p.2 - c.2) (d.1 - c.1, d.2 - c.2) / sqDistQ d c)))

/-- Minimum of the four endpoint-to-opposite-segment squared distances of the
segments `[a1, a2]` and `[b1, b2]`. -/
def min4Q (a1 a2 b1 b2 : Pt) : ℚ :=
  min (min (ptSegSq a1 b1 b2) (ptSegSq a2 b1 b2)) (min (ptSegSq b1 a1 a2) (ptSegSq b2 a1 a2))

/-- The determinant `dA × dB` of the direction vectors of the segments
`[a1, a2]` and `[b1, b2]`. -/
def detOf (a1 a2 b1 b2 : Pt) : ℚ :=
  crossQ (a2.1 - a1.1, a2.2 - a1.2) (b2.1 - b1.1, b2.2 - b1.2)

/-- The `A`-side parameter of the intersection point of the two segments'
supporting lines (meaningful when `detOf ≠ 0`). -/
def sParam (a1 a2 b1 b2 : Pt) : ℚ :=
  crossQ (b1.1 - a1.1, b1.2 - a1.2) (b2.1 - b1.1, b2.2 - b1.2) / detOf a1 a2 b1 b2

/-- The `B`-side parameter of the intersection point of the two segments'
supporting lines (meaningful when `detOf ≠ 0`). -/
def uParam (a1 a2 b1 b2 : Pt) : ℚ :=
  crossQ (b1.1 - a1.1, b1.2 - a1.2) (a2.1 - a1.1, a2.2 - a1.2) / detOf a1 a2 b1 b2

/-- Exact squared distance between the segments `[a1, a2]` and `[b1, b2]`:
zero when the two segments meet (solving the 2×2 linear system), otherwise the
minimum over the four endpoint-to-segment problems. -/
def segSegSqDist (a1 a2 b1 b2 : Pt) : ℚ :=
  if detOf a1 a2 b1 b2 = 0 then min4Q a1 a2 b1 b2
  else
    if 0 ≤ sParam a1 a2 b1 b2 ∧ sParam a1 a2 b1 b2 ≤ 1 ∧
        0 ≤ uParam a1 a2 b1 b2 ∧ uParam a1 a2 b1 b2 ≤ 1 then 0
    else min4Q a1 a2 b1 b2

/-- The consecutive-vertex segments of a geometry; a single point is the
degenerate segment from the point to itself. -/
def segsOf : Geom → List (Pt × Pt)
  | [] => []
  | [p] => [(p, p)]
  | p :: q :: rest => (p, q) :: segsOf (q :: rest)

/-- All squared segment-pair distances between two geometries. -/
def sqDistList (A B : Geom) : List ℚ :=
  (segsOf A).flatMap fun sa => (segsOf B).map fun sb => segSegSqDist sa.1 sa.2 sb.1 sb.2

/-- Minimum of a list of rationals (`none` on the empty list). -/
def listMinQ : List ℚ → Option ℚ
  | [] => none
  | x :: xs =>
    some (match listMinQ xs with
          | none => x
          | some m => min x m)

/-- The exact dilation-intersection test `A.buffer(t).intersects(B)` of the
source (shapely collaborator, modelled exactly): for point/line geometries the
buffer is empty when `t ≤ 0`, and for `t > 0` it is the closed
`t`-neighbourhood of `A`, which meets `B` iff the minimum squared separation
is at most `t²`. -/
def bufferIntersectsB (A : Geom) (t : ℚ) (B : Geom) : Bool :=
  if t ≤ 0 then false
  else
    match listMinQ (sqDistList A B) with
    | none => false
    | some m => decide (m ≤ t ^ 2)

/-- An axis-aligned rational bounding box `(minx, miny, maxx, maxy)`. -/
structure BoxQ where
  minx : ℚ
  miny : ℚ
  maxx : ℚ
  maxy : ℚ

/-- Bounding box of a geometry (`none` for the empty geometry, whose shapely
bounds are NaN and never match a spatial-index query). -/
def bboxOf : Geom → Option BoxQ
  | [] => none
  | p :: rest =>
    some (rest.foldl
      (fun b q => ⟨min b.minx q.1, min b.miny q.2, max b.maxx q.1, max b.maxy q.2⟩)
      ⟨p.1, p.2, p.1, p.2⟩)

/-- Expand a box by `t` on every side. -/
def expandBox (b : BoxQ) (t : ℚ) : BoxQ := ⟨b.minx - t, b.miny - t, b.maxx + t, b.maxy + t⟩

/-- `geom.buffer(t).bounds` of the source: for `t > 0` the bounds of the
closed `t`-neighbourhood, i.e. the raw bounds expanded by `t`; for `t ≤ 0`
the buffer of a point/line geometry is empty and has no usable bounds. -/
def bufferBoundsQ (g : Geom) (t : ℚ) : Option BoxQ :=
  if t ≤ 0 then none else (bboxOf g).map (fun b => expandBox b t)

/-- Closed axis-aligned boxes intersect (interval overlap on both axes). -/
def boxesIntersectB (a b : BoxQ) : Bool :=
  decide (a.minx ≤ b.maxx ∧ b.minx ≤ a.maxx ∧ a.miny ≤ b.maxy ∧ b.miny ≤ a.maxy)

/-- The spatial-index candidate test of `sindex.intersection(bbox)`: record
`j` is a candidate for record `i` iff `j`'s stored (unexpanded) bounding box
intersects the bounds of `i`'s buffered geometry. -/
def candidateB (geoms : List Geom) (t : ℚ) (i j : ℕ) : Bool :=
  match bufferBoundsQ (geoms.getD i []) t, bboxOf (geoms.getD j []) with
  | some qb, some jb => boxesIntersectB qb jb
  | _, _ => false

/-- The spatial-index query results for row `i`, in ascending position order. -/
def candidatesFor (geoms : List Geom) (t : ℚ) (i : ℕ) : List ℕ :=
  (List.range geoms.length).filter fun j => candidateB geoms t i j

/-- The edge-building double loop of `group_geometries_by_proximity`
(lines 155–165 of the source): for each row `i`, for each spatial-index
candidate `j`, if `i < j` and `geom_i.buffer(t).intersects(geom_j)`, the edge
`(i, j)` is added to the graph. -/
def edgesOf (geoms : List Geom) (t : ℚ) : List (ℕ × ℕ) :=
  (List.range geoms.length).flatMap fun i =>
    ((candidatesFor geoms t i).filter
        (fun j => decide (i < j) && bufferIntersectsB (geoms.getD i []) t (geoms.getD j []))).map
      fun j => (i, j)

/-- Two node indices are adjacent in the proximity graph. -/
def adjacentP (E : List (ℕ × ℕ)) (x y : ℕ) : Prop := (x, y) ∈ E ∨ (y, x) ∈ E

/-- Graph reachability: the reflexive-transitive closure of adjacency. -/
def reachableIn (E : List (ℕ × ℕ)) : ℕ → ℕ → Prop :=
  Relation.ReflTransGen (adjacentP E)

/-- `x` and `y` are joined by some edge of `E` with `y` among the first `n`
nodes, computably. -/
def touchesB (S : Finset ℕ) (E : List (ℕ × ℕ)) (j : ℕ) : Bool :=
  E.any fun e => (decide (e.1 ∈ S) && decide (e.2 = j)) || (decide (e.2 ∈ S) && decide (e.1 = j))

/-- One breadth-first expansion step: add every node of `0, …, n-1` joined by
an edge to the current set. -/
def adjStep (E : List (ℕ × ℕ)) (n : ℕ) (S : Finset ℕ) : Finset ℕ :=
  S ∪ (Finset.range n).filter fun j => touchesB S E j = true

/-- All nodes reachable from `x`, computed by `n` expansion steps (enough to
stabilise on a graph with `n` nodes).

Modelled from the spec (§4.5): `networkx.connected_components` is an external
collaborator; only the resulting partition is contractually fixed, and any
component computation realising graph reachability is acceptable. -/
def reachFinset (E : List (ℕ × ℕ)) (n : ℕ) (x : ℕ) : Finset ℕ :=
  (adjStep E n)^[n] {x}

/-- `x` is the minimal node of its component. -/
def isRepB (E : List (ℕ × ℕ)) (n : ℕ) (x : ℕ) : Bool :=
  decide (∀ y ∈ reachFinset E n x, x ≤ y)

/-- The minimal nodes of the components, in increasing order. -/
def repsList (E : List (ℕ × ℕ)) (n : ℕ) : List ℕ :=
  (List.range n).filter fun x => isRepB E n x

/-- The nodes of the component of `x`, in increasing order. -/
def classComp (E : List (ℕ × ℕ)) (n : ℕ) (x : ℕ) : List ℕ :=
  (List.range n).filter fun y => decide (y ∈ reachFinset E n x)

/-- The connected components of the graph on nodes `0, …, n-1` with edge list
`E`, enumerated —as `networkx.connected_components` does for nodes inserted in
range order— in increasing order of their minimal node.

Modelled from the spec (§4.5): the component algorithm itself is an external
collaborator (`networkx`); the spec fixes only the produced partition. -/
def componentsOf (E : List (ℕ × ℕ)) (n : ℕ) : List (List ℕ) :=
  (repsList E n).map fun x => classComp E n x

/-- The cluster id a node receives: the position, in the enumerated component
list, of the component containing it. -/
def labelOf (E : List (ℕ × ℕ)) (n : ℕ) (i : ℕ) : Option ℕ :=
  (componentsOf E n).findIdx? fun c => decide (i ∈ c)

/-- The distinct reachability classes of the graph on `0, …, n-1`: the
specification-side notion whose cardinality is "the number of connected
components". -/
def classesOf (E : List (ℕ × ℕ)) (n : ℕ) : Finset (Finset ℕ) :=
  (Finset.range n).image fun x => reachFinset E n x

/-- One record of the (Geo)DataFrame: its geometry and the three derived
columns the pipeline may have filled in (`utm_epsg`, `len_mt`,
`parking_id`). -/
structure Row where
  geom : Geom
  utm_epsg : Option ℤ
  len_mt : Option ℝ
  parking_id : Option ℕ

/-- A GeoDataFrame: its records in order, and its declared CRS. -/
structure GDF where
  rows : List Row
  crs : Option String

/-- The Python exceptions the embedded code can raise. -/
inductive PyErr
  /-- `ValueError("⚠️ CRS is required. …")` raised by `build_geodataframe`
  when no CRS is supplied. -/
  | valueErrorCrsRequired
  /-- `TypeError("Data type not recognized: …")` raised by `safe_wkt_load`
  on a value that is neither text nor a shapely geometry. -/
  | typeErrorUnrecognized
  /-- The error the geodesy engine raises when it cannot estimate a UTM CRS
  (e.g. for an empty geometry with NaN bounds). -/
  | runtimeErrorCannotEstimateUtm
  /-- `ValueError("Columns must be same length as key")` raised by the pandas
  two-column expand assignment of `add_utm_projection_metrics` (line 119) on
  a zero-row frame whose column count is not exactly two. -/
  | valueErrorColumnsMismatch
  /-- Geodesy-engine behaviour outside the modelled fragment (a source CRS
  other than WGS84 never occurs in the program). -/
  | projectionUnavailable

/-- A value found in the geometry column of a plain DataFrame.

Modelled from the spec (§6): the WKT decoder is an external collaborator
(`text → vertex sequence`, failing on malformed input); well-formed text is
represented by its denotation, malformed or wrongly-typed values by
`unrecognized`. -/
inductive GeoCell
  /-- A well-formed WKT string, represented by the geometry it denotes. -/
  | wktText (g : Geom)
  /-- A value that already is a shapely `BaseGeometry`. -/
  | typedGeom (g : Geom)
  /-- Any other Python value. -/
  | unrecognized

/-- The `safe_wkt_load` helper of `build_geodataframe`: text is decoded,
geometries pass through, anything else raises `TypeError`. -/
def safe_wkt_load : GeoCell → Except PyErr Geom
  | .wktText g => .ok g
  | .typedGeom g => .ok g
  | .unrecognized => .error .typeErrorUnrecognized

/-- The input object handed to `build_geodataframe`: either already a
GeoDataFrame, or a plain DataFrame with its column names, the contents of its
`geometry` column when present, and the contents of the column named by
`geometry_column_name`. -/
inductive DFInput
  | geodataframe (g : GDF)
  | plain (cols : List String) (geometryColumn : List Geom) (namedColumn : List GeoCell)

/-- `is_geodataframe` of the source. -/
def is_geodataframe : DFInput → Bool
  | .geodataframe _ => true
  | .plain _ _ _ => false

/-- A fresh record with no derived columns. -/
def mkRow (g : Geom) : Row := ⟨g, none, none, none⟩

/-- `build_geodataframe` of the source (lines 15–53): raises `ValueError`
when no CRS is supplied, then either returns an input GeoDataFrame unchanged,
reuses a present `geometry` column, or decodes the named geometry column. -/
def build_geodataframe (df : DFInput) (geometry_column_name : String) (crs : Option String) :
    Except PyErr GDF :=
  match crs with
  | none => .error .valueErrorCrsRequired
  | some c =>
    if is_geodataframe df = false then
      match df with
      | .geodataframe g => .ok g
      | .plain cols geometryColumn namedColumn =>
        if cols.count "geometry" ≠ 0 then
          .ok ⟨geometryColumn.map mkRow, some c⟩
        else do
          let gs ← namedColumn.mapM safe_wkt_load
          .ok ⟨gs.map mkRow, some c⟩
    else
      match df with
      | .geodataframe g => .ok g
      | .plain cols geometryColumn _ => .ok ⟨geometryColumn.map mkRow, some c⟩

/-- The standard UTM zone index of a longitude. -/
def utmZone (lon : ℚ) : ℤ := ⌊(lon + 180) / 6⌋ + 1

/-- The EPSG code of the UTM zone covering a WGS84 position: `326xx` on the
northern hemisphere, `327xx` on the southern. -/
def utmEpsgFor (lon lat : ℚ) : ℤ := (if 0 ≤ lat then 32600 else 32700) + utmZone lon

/-- The centre of a bounding box. -/
def bboxCenter (b : BoxQ) : Pt := ((b.minx + b.maxx) / 2, (b.miny + b.maxy) / 2)

/-- `estimate_utm_crs` of the geodesy engine.

Modelled from the spec (§4.1, §6): the geodesy engine is an external
collaborator; zone selection follows the standard zone formula applied to the
geometry's representative point (the centre of its bounds), the hemisphere is
taken from the sign of the latitude, an empty geometry (NaN bounds) fails,
and behaviour for a source CRS other than WGS84 is outside the modelled
fragment (the program never supplies one). -/
def estimate_utm_crs (crs : String) (g : Geom) : Except PyErr ℤ :=
  match bboxOf g with
  | none => .error .runtimeErrorCannotEstimateUtm
  | some b =>
    if crs = "EPSG:4326" then .ok (utmEpsgFor (bboxCenter b).1 (bboxCenter b).2)
    else .error .projectionUnavailable

/-- `to_crs` of the geodesy engine.

Modelled from the spec (§4.1, §6): the spec specifies only the transform's
interface (`geometry + projection → reprojected geometry`), not its
mathematics; it is represented as a deterministic vertex-sequence map, here
the identity on the modelled coordinates. -/
def to_crs (src : String) (epsg : ℤ) (g : Geom) : Except PyErr Geom := .ok g

/-- Planar length of a geometry: the sum of the euclidean distances between
consecutive vertices (0 for a point). -/
noncomputable def lengthOf (g : Geom) : ℝ :=
  ((g.zip g.tail).map fun pq => Real.sqrt ((sqDistQ pq.1 pq.2 : ℚ) : ℝ)).sum

/-- `determine_utm_and_reproject` of the source (lines 55–93): defaults the
source CRS to `"EPSG:4326"` when none is given, estimates the UTM zone of the
row's geometry, reprojects, and returns the EPSG code together with the
projected length. -/
noncomputable def determine_utm_and_reproject (row : Row) (geometry_col_name : String)
    (crs : Option String) : Except PyErr (ℤ × ℝ) :=
  let crsVal := crs.getD "EPSG:4326"
  do
    let epsg ← estimate_utm_crs crsVal row.geom
    let reproj ← to_crs crsVal epsg row.geom
    .ok (epsg, lengthOf reproj)

/-- `add_utm_projection_metrics` of the source (lines 95–120): applies
`determine_utm_and_reproject` to every row — passing only the geometry column
name, so the `crs` argument is always `None` — and stores the results in the
`utm_epsg` and `len_mt` columns. The row-wise `apply` of pandas is modelled
as a monadic map over the records. -/
noncomputable def add_utm_projection_metrics (gdf : GDF) (geometry_col_name : String) :
    Except PyErr GDF := do
  let rows' ← gdf.rows.mapM fun r => do
    let m ← determine_utm_and_reproject r geometry_col_name none
    .ok (⟨r.geom, some m.1, some m.2, r.parking_id⟩ : Row)
  .ok ⟨rows', gdf.crs⟩

/-- The geometry column of a GeoDataFrame. -/
def geomsOf (gdf : GDF) : List Geom := gdf.rows.map fun r => r.geom

/-- The diagnostic line `group_geometries_by_proximity` prints. -/
def groupMessage (k : ℕ) : String :=
  "Analysis completed: It was detected " ++ toString k ++ " unique groups."

/-- Overwrite `parking_id` with `gid` on every row whose position (counting
from `idx`) is listed in `c` — the effect of `gdf.loc[list(nodes),
"parking_id"] = group_id`. -/
def updateRowsFrom (c : List ℕ) (gid : ℕ) : ℕ → List Row → List Row
  | _, [] => []
  | idx, r :: rs =>
    (if idx ∈ c then (⟨r.geom, r.utm_epsg, r.len_mt, some gid⟩ : Row) else r) ::
      updateRowsFrom c gid (idx + 1) rs

/-- The assignment loop `for group_id, nodes in enumerate(components): …` of
the source (lines 174–175). -/
def assignIds : List Row → List (List ℕ) → ℕ → List Row
  | rows, [], _ => rows
  | rows, c :: rest, gid => assignIds (updateRowsFrom c gid 0 rows) rest (gid + 1)

/-- `group_geometries_by_proximity` of the source (lines 122–177): builds the
proximity graph over the row indices with the spatial-index/buffer test,
takes its connected components, prints the diagnostic count, and writes each
component's position as the rows' `parking_id`. The second component of the
result records the printed diagnostics. -/
def group_geometries_by_proximity (gdf : GDF) (geometry_col_name : String)
    (tolerance_meter : ℚ) : GDF × List String :=
  let geoms := geomsOf gdf
  let comps := componentsOf (edgesOf geoms tolerance_meter) geoms.length
  (⟨assignIds gdf.rows comps 0, gdf.crs⟩, [groupMessage comps.length])

/-- `process_clustering` of the source (lines 179–210): enrich with UTM
metrics, then group by proximity; the grouped GeoDataFrame (with the printed
diagnostics) is the entire return value. -/
noncomputable def process_clustering (gdf : GDF) (geometry_col_name : String)
    (tolerance_in_meter : ℚ) : Except PyErr (GDF × List String) := do
  let gdf_projected ← add_utm_projection_metrics gdf geometry_col_name
  .ok (group_geometries_by_proximity gdf_projected geometry_col_name tolerance_in_meter)

/-- The number of groups the pipeline discovers for a GeoDataFrame at a given
tolerance. -/
def numberOfGroups (gdf : GDF) (t : ℚ) : ℕ :=
  (componentsOf (edgesOf (geomsOf gdf) t) (geomsOf gdf).length).length

/-- Modelled from pandas' documented behaviour: on a zero-row frame,
`apply(…, result_type="expand")` takes the `apply_empty_result` path and
returns the frame copy with its original columns, so the two-column
assignment `gdf_copy[["utm_epsg","len_mt"]] = …` of line 119 raises
`ValueError("Columns must be same length as key")` unless the frame happens
to have exactly two columns. `ncols` is the input frame's column count (a
frame holding only its geometry column has `ncols = 1`). On a nonempty frame
the assignment succeeds and the enrichment is the row-wise map of
`add_utm_projection_metrics`. -/
noncomputable def add_utm_projection_metrics_expand (ncols : ℕ) (gdf : GDF)
    (geometry_col_name : String) : Except PyErr GDF :=
  match gdf.rows with
  | [] =>
    if ncols = 2 then add_utm_projection_metrics gdf geometry_col_name
    else .error PyErr.valueErrorColumnsMismatch
  | _ :: _ => add_utm_projection_metrics gdf geometry_col_name

/-- `process_clustering` of the source (lines 179–210) with the zero-row
behaviour of the pandas expand assignment made explicit (see
`add_utm_projection_metrics_expand`). -/
noncomputable def process_clustering_expand (ncols : ℕ) (gdf : GDF)
    (geometry_col_name : String) (tolerance_in_meter : ℚ) :
    Except PyErr (GDF × List String) := do
  let gdf_projected ← add_utm_projection_metrics_expand ncols gdf geometry_col_name
  .ok (group_geometries_by_proximity gdf_projected geometry_col_name tolerance_in_meter)

/-- There is an edge between `i` and `j` (in either orientation). -/
def hasEdge (E : List (ℕ × ℕ)) (i j : ℕ) : Prop := (i, j) ∈ E ∨ (j, i) ∈ E

/-- A rational point as a real point. -/
def castPt (p : Pt) : ℝ × ℝ := ((p.1 : ℝ), (p.2 : ℝ))

/-- Squared euclidean distance between two real points. -/
def sqDistR (p q : ℝ × ℝ) : ℝ := (p.1 - q.1) ^ 2 + (p.2 - q.2) ^ 2

/-- The point `c + u • (d - c)` of the real segment from `c` to `d`. -/
def lerpR (c d : ℝ × ℝ) (u : ℝ) : ℝ × ℝ :=
  (c.1 + u * (d.1 - c.1), c.2 + u * (d.2 - c.2))

/-- The closed real segment from `c` to `d`, as a parametrised point set. -/
def segPts (c d : ℝ × ℝ) : Set (ℝ × ℝ) :=
  {x | ∃ u : ℝ, 0 ≤ u ∧ u ≤ 1 ∧ x = lerpR c d u}

/-- The set of planar points of a geometry: the union of its segments. -/
def pointSet (g : Geom) : Set (ℝ × ℝ) :=
  ⋃ s ∈ segsOf g, segPts (castPt s.1) (castPt s.2)

/-- The minimum separation of two geometries, following the spec's words
(§4.4, §8): the infimum of the euclidean distances between a point of `A` and
a point of `B`. This is the specification-side definition the source's
dilation-intersection test is compared against. -/
noncomputable def minSeparation (A B : Geom) : ℝ :=
  sInf {r : ℝ | ∃ p ∈ pointSet A, ∃ q ∈ pointSet B, r = Real.sqrt (sqDistR p q)}

/-! ## Basic facts about the geometric primitives -/

theorem sqDistQ_nonneg (p q : Pt) : 0 ≤ sqDistQ p q := by
  unfold sqDistQ; positivity

theorem sqDistQ_comm (p q : Pt) : sqDistQ p q = sqDistQ q p := by
  unfold sqDistQ; ring

theorem sqDistR_nonneg (p q : ℝ × ℝ) : 0 ≤ sqDistR p q := by
  unfold sqDistR; positivity

theorem sqDistR_comm (p q : ℝ × ℝ) : sqDistR p q = sqDistR q p := by
  unfold sqDistR; ring

theorem sqDistQ_cast (p q : Pt) :
    ((sqDistQ p q : ℚ) : ℝ) = sqDistR (castPt p) (castPt q) := by
  unfold sqDistQ sqDistR castPt; push_cast; ring

theorem castPt_lerpQ (c d : Pt) (u : ℚ) :
    castPt (lerpQ c d u) = lerpR (castPt c) (castPt d) (u : ℝ) := by
  unfold castPt lerpQ lerpR; push_cast; rfl

theorem sqDistQ_lerpQ (p c d : Pt) (w : ℚ) :
    sqDistQ p (lerpQ c d w) =
      sqDistQ p c - 2 * w * dotQ (p.1 - c.1, p.2 - c.2) (d.1 - c.1, d.2 - c.2) +
        w ^ 2 * sqDistQ d c := by
  unfold sqDistQ lerpQ dotQ; ring

theorem sqDistR_lerpR_cast (p c d : Pt) (u : ℝ) :
    sqDistR (castPt p) (lerpR (castPt c) (castPt d) u) =
      ((sqDistQ p c : ℚ) : ℝ) -
        2 * u * ((dotQ (p.1 - c.1, p.2 - c.2) (d.1 - c.1, d.2 - c.2) : ℚ) : ℝ) +
        u ^ 2 * ((sqDistQ d c : ℚ) : ℝ) := by
  unfold sqDistR lerpR castPt sqDistQ dotQ; push_cast; ring

theorem clamp01_nonneg (x : ℚ) : 0 ≤ clamp01 x := le_max_left 0 _

theorem clamp01_le_one (x : ℚ) : clamp01 x ≤ 1 := by
  unfold clamp01
  rcases le_total x 1 with h | h
  · exact max_le zero_le_one (le_trans (min_le_right 1 x) h)
  · exact max_le zero_le_one (min_le_left 1 x)

theorem sqDistQ_eq_zero_iff (p q : Pt) : sqDistQ p q = 0 ↔ p.1 = q.1 ∧ p.2 = q.2 := by
  unfold sqDistQ
  constructor
  · intro h
    constructor
    · nlinarith [sq_nonneg (p.1 - q.1), sq_nonneg (p.2 - q.2)]
    · nlinarith [sq_nonneg (p.1 - q.1), sq_nonneg (p.2 - q.2)]
  · rintro ⟨h1, h2⟩
    rw [h1, h2]; ring

/-! ## List-minimum facts -/

theorem listMinQ_eq_none_iff (l : List ℚ) : listMinQ l = none ↔ l = [] := by
  cases l with
  | nil => simp [listMinQ]
  | cons x xs => simp [listMinQ]

theorem listMinQ_mem {l : List ℚ} {m : ℚ} (h : listMinQ l = some m) : m ∈ l := by
  induction l generalizing m with
  | nil => simp [listMinQ] at h
  | cons x xs ih =>
    simp only [listMinQ] at h
    rcases hxs : listMinQ xs with _ | m'
    · rw [hxs] at h
      simp at h
      simp [h]
    · rw [hxs] at h
      simp at h
      rcases le_total x m' with hle | hle
      · rw [min_eq_left hle] at h
        simp [h]
      · rw [min_eq_right hle] at h
        exact List.mem_cons_of_mem x (h ▸ ih hxs)

theorem listMinQ_le {l : List ℚ} {m : ℚ} (h : listMinQ l = some m) :
    ∀ x ∈ l, m ≤ x := by
  induction l generalizing m with
  | nil => simp
  | cons x xs ih =>
    simp only [listMinQ] at h
    rcases hxs : listMinQ xs with _ | m'
    · rw [hxs] at h
      simp at h
      rcases (listMinQ_eq_none_iff xs).mp hxs with rfl
      simp [h]
    · rw [hxs] at h
      simp at h
      intro y hy
      rcases List.mem_cons.mp hy with h1 | hy'
      · subst h1
        exact h ▸ min_le_left _ _
      · exact le_trans (h ▸ min_le_right x m') (ih hxs y hy')

theorem listMinQ_isSome_of_mem {l : List ℚ} {x : ℚ} (h : x ∈ l) :
    ∃ m, listMinQ l = some m := by
  cases l with
  | nil => simp at h
  | cons y ys => exact ⟨_, rfl⟩

/-! ## Point-to-segment distance: the clamped projection is the minimiser -/

theorem ptSegSq_achieve (p c d : Pt) :
    ∃ u : ℚ, 0 ≤ u ∧ u ≤ 1 ∧ ptSegSq p c d = sqDistQ p (lerpQ c d u) := by
  unfold ptSegSq
  by_cases hA : sqDistQ d c = 0
  · refine ⟨0, le_refl 0, zero_le_one, ?_⟩
    rw [if_pos hA, sqDistQ_lerpQ]
    ring
  · exact ⟨_, clamp01_nonneg _, clamp01_le_one _, by rw [if_neg hA]⟩

theorem clamp01_cases (x : ℚ) :
    (x ≤ 0 ∧ clamp01 x = 0) ∨ (1 ≤ x ∧ clamp01 x = 1) ∨
      (0 ≤ x ∧ x ≤ 1 ∧ clamp01 x = x) := by
  unfold clamp01
  rcases le_or_lt x 0 with h0 | h0
  · exact Or.inl ⟨h0, by rw [min_eq_right (le_trans h0 zero_le_one), max_eq_left h0]⟩
  · rcases le_or_lt 1 x with h1 | h1
    · exact Or.inr (Or.inl ⟨h1, by rw [min_eq_left h1, max_eq_right zero_le_one]⟩)
    · exact Or.inr (Or.inr ⟨le_of_lt h0, le_of_lt h1,
        by rw [min_eq_right (le_of_lt h1), max_eq_right (le_of_lt h0)]⟩)

theorem ptSegSq_le (p c d : Pt) (u : ℝ) (hu0 : 0 ≤ u) (hu1 : u ≤ 1) :
    ((ptSegSq p c d : ℚ) : ℝ) ≤ sqDistR (castPt p) (lerpR (castPt c) (castPt d) u) := by
  rw [sqDistR_lerpR_cast]
  unfold ptSegSq
  by_cases hA : sqDistQ d c = 0
  · rw [if_pos hA]
    rcases (sqDistQ_eq_zero_iff d c).mp hA with ⟨h1, h2⟩
    have hB : dotQ (p.1 - c.1, p.2 - c.2) (d.1 - c.1, d.2 - c.2) = 0 := by
      unfold dotQ
      simp only
      rw [h1, h2]
      ring
    rw [hA, hB]
    push_cast
    nlinarith [sq_nonneg u]
  · rw [if_neg hA, sqDistQ_lerpQ]
    have hApos : 0 < sqDistQ d c := lt_of_le_of_ne (sqDistQ_nonneg d c) (Ne.symm hA)
    set Aq := sqDistQ d c with hAq
    set Bq := dotQ (p.1 - c.1, p.2 - c.2) (d.1 - c.1, d.2 - c.2) with hBq
    set Cq := sqDistQ p c with hCq
    have hAR : (0 : ℝ) < (Aq : ℝ) := by exact_mod_cast hApos
    rcases clamp01_cases (Bq / Aq) with ⟨hx, hcl⟩ | ⟨hx, hcl⟩ | ⟨hx0, hx1, hcl⟩
    · rw [hcl]
      have hBnp : Bq ≤ 0 := by
        by_contra hpos
        push_neg at hpos
        exact absurd (div_pos hpos hApos) (not_lt.mpr hx)
      have hBR : (Bq : ℝ) ≤ 0 := by exact_mod_cast hBnp
      push_cast
      nlinarith [mul_nonneg (mul_nonneg hu0 hu0) hAR.le,
        mul_nonpos_of_nonneg_of_nonpos hu0 hBR]
    · rw [hcl]
      have hAB : Aq ≤ Bq := (one_le_div hApos).mp hx
      have hABR : (Aq : ℝ) ≤ (Bq : ℝ) := by exact_mod_cast hAB
      push_cast
      nlinarith [mul_nonneg (mul_nonneg (sub_nonneg.mpr hu1) (sub_nonneg.mpr hu1)) hAR.le,
        mul_nonneg (sub_nonneg.mpr hu1) (sub_nonneg.mpr hABR)]
    · rw [hcl]
      push_cast
      set r : ℝ := (Bq : ℝ) / (Aq : ℝ) with hr
      have hrB : (Bq : ℝ) = r * (Aq : ℝ) := by
        rw [hr]
        field_simp
      rw [hrB]
      nlinarith [mul_nonneg hAR.le (sq_nonneg (u - r))]

/-! ## The four endpoint candidates bound the boundary of the parameter square -/

theorem lerpR_zero (c d : ℝ × ℝ) : lerpR c d 0 = c := by
  unfold lerpR
  simp

theorem lerpR_one (c d : ℝ × ℝ) : lerpR c d 1 = d := by
  unfold lerpR
  have h1 : c.1 + 1 * (d.1 - c.1) = d.1 := by ring
  have h2 : c.2 + 1 * (d.2 - c.2) = d.2 := by ring
  rw [h1, h2]

theorem ptSegSq_cast_achieve (p c d : Pt) :
    ∃ u : ℝ, 0 ≤ u ∧ u ≤ 1 ∧
      sqDistR (castPt p) (lerpR (castPt c) (castPt d) u) = ((ptSegSq p c d : ℚ) : ℝ) := by
  rcases ptSegSq_achieve p c d with ⟨u, hu0, hu1, hu⟩
  refine ⟨(u : ℝ), by exact_mod_cast hu0, by exact_mod_cast hu1, ?_⟩
  rw [← castPt_lerpQ, ← sqDistQ_cast, hu]

theorem min4Q_le_1 (a1 a2 b1 b2 : Pt) : min4Q a1 a2 b1 b2 ≤ ptSegSq a1 b1 b2 :=
  le_trans (min_le_left _ _) (min_le_left _ _)

theorem min4Q_le_2 (a1 a2 b1 b2 : Pt) : min4Q a1 a2 b1 b2 ≤ ptSegSq a2 b1 b2 :=
  le_trans (min_le_left _ _) (min_le_right _ _)

theorem min4Q_le_3 (a1 a2 b1 b2 : Pt) : min4Q a1 a2 b1 b2 ≤ ptSegSq b1 a1 a2 :=
  le_trans (min_le_right _ _) (min_le_left _ _)

theorem min4Q_le_4 (a1 a2 b1 b2 : Pt) : min4Q a1 a2 b1 b2 ≤ ptSegSq b2 a1 a2 :=
  le_trans (min_le_right _ _) (min_le_right _ _)

theorem min4Q_le_boundary (a1 a2 b1 b2 : Pt) (s u : ℝ)
    (hs0 : 0 ≤ s) (hs1 : s ≤ 1) (hu0 : 0 ≤ u) (hu1 : u ≤ 1)
    (hb : s = 0 ∨ s = 1 ∨ u = 0 ∨ u = 1) :
    ((min4Q a1 a2 b1 b2 : ℚ) : ℝ) ≤
      sqDistR (lerpR (castPt a1) (castPt a2) s) (lerpR (castPt b1) (castPt b2) u) := by
  rcases hb with rfl | rfl | rfl | rfl
  · rw [lerpR_zero]
    exact le_trans (by exact_mod_cast min4Q_le_1 a1 a2 b1 b2) (ptSegSq_le a1 b1 b2 u hu0 hu1)
  · rw [lerpR_one]
    exact le_trans (by exact_mod_cast min4Q_le_2 a1 a2 b1 b2) (ptSegSq_le a2 b1 b2 u hu0 hu1)
  · rw [lerpR_zero, sqDistR_comm]
    exact le_trans (by exact_mod_cast min4Q_le_3 a1 a2 b1 b2) (ptSegSq_le b1 a1 a2 s hs0 hs1)
  · rw [lerpR_one, sqDistR_comm]
    exact le_trans (by exact_mod_cast min4Q_le_4 a1 a2 b1 b2) (ptSegSq_le b2 a1 a2 s hs0 hs1)

theorem min4Q_achieve (a1 a2 b1 b2 : Pt) :
    ∃ s u : ℝ, 0 ≤ s ∧ s ≤ 1 ∧ 0 ≤ u ∧ u ≤ 1 ∧
      sqDistR (lerpR (castPt a1) (castPt a2) s) (lerpR (castPt b1) (castPt b2) u) =
        ((min4Q a1 a2 b1 b2 : ℚ) : ℝ) := by
  have hch : min4Q a1 a2 b1 b2 = ptSegSq a1 b1 b2 ∨ min4Q a1 a2 b1 b2 = ptSegSq a2 b1 b2 ∨
      min4Q a1 a2 b1 b2 = ptSegSq b1 a1 a2 ∨ min4Q a1 a2 b1 b2 = ptSegSq b2 a1 a2 := by
    unfold min4Q
    rcases min_choice (min (ptSegSq a1 b1 b2) (ptSegSq a2 b1 b2))
        (min (ptSegSq b1 a1 a2) (ptSegSq b2 a1 a2)) with h | h <;> rw [h]
    · rcases min_choice (ptSegSq a1 b1 b2) (ptSegSq a2 b1 b2) with h' | h' <;> rw [h']
      · exact Or.inl rfl
      · exact Or.inr (Or.inl rfl)
    · rcases min_choice (ptSegSq b1 a1 a2) (ptSegSq b2 a1 a2) with h' | h' <;> rw [h']
      · exact Or.inr (Or.inr (Or.inl rfl))
      · exact Or.inr (Or.inr (Or.inr rfl))
  rcases hch with h | h | h | h <;> rw [h]
  · rcases ptSegSq_cast_achieve a1 b1 b2 with ⟨u, hu0, hu1, hu⟩
    exact ⟨0, u, le_refl 0, zero_le_one, hu0, hu1, by rw [lerpR_zero]; exact hu⟩
  · rcases ptSegSq_cast_achieve a2 b1 b2 with ⟨u, hu0, hu1, hu⟩
    exact ⟨1, u, zero_le_one, le_refl 1, hu0, hu1, by rw [lerpR_one]; exact hu⟩
  · rcases ptSegSq_cast_achieve b1 a1 a2 with ⟨s, hs0, hs1, hs⟩
    exact ⟨s, 0, hs0, hs1, le_refl 0, zero_le_one, by rw [lerpR_zero, sqDistR_comm]; exact hs⟩
  · rcases ptSegSq_cast_achieve b2 a1 a2 with ⟨s, hs0, hs1, hs⟩
    exact ⟨s, 1, hs0, hs1, zero_le_one, le_refl 1, by rw [lerpR_one, sqDistR_comm]; exact hs⟩

/-! ## Crossing the boundary of the parameter square -/

theorem segEntry (a v : ℝ) (hv0 : 0 ≤ v) (hv1 : v ≤ 1) :
    ∃ τ : ℝ, 0 ≤ τ ∧ τ ≤ 1 ∧
      (∀ τ' : ℝ, τ ≤ τ' → τ' ≤ 1 → 0 ≤ a + τ' * (v - a) ∧ a + τ' * (v - a) ≤ 1) ∧
      ((a < 0 ∨ 1 < a) → a + τ * (v - a) = 0 ∨ a + τ * (v - a) = 1) ∧
      (0 ≤ a ∧ a ≤ 1 → τ = 0) := by
  rcases lt_or_le a 0 with ha | ha
  · have hd : 0 < v - a := by linarith
    refine ⟨-a / (v - a), div_nonneg (by linarith) hd.le, ?_, ?_, ?_, ?_⟩
    · rw [div_le_one hd]
      linarith
    · intro τ' h1 h2
      have h3 : -a ≤ τ' * (v - a) := by
        rw [div_le_iff hd] at h1
        linarith
      have h4 : τ' * (v - a) ≤ 1 * (v - a) := mul_le_mul_of_nonneg_right h2 hd.le
      constructor <;> linarith
    · intro _
      left
      field_simp
    · intro h
      linarith [h.1]
  · rcases le_or_lt a 1 with ha' | ha'
    · refine ⟨0, le_refl 0, zero_le_one, ?_, ?_, fun _ => rfl⟩
      · intro τ' h1 h2
        rcases le_or_lt a v with hav | hav
        · have h3 : 0 ≤ τ' * (v - a) := mul_nonneg h1 (by linarith)
          have h4 : τ' * (v - a) ≤ 1 * (v - a) := mul_le_mul_of_nonneg_right h2 (by linarith)
          constructor <;> linarith
        · have h3 : τ' * (v - a) ≤ 0 := mul_nonpos_of_nonneg_of_nonpos h1 (by linarith)
          have h4 : 1 * (v - a) ≤ τ' * (v - a) := mul_le_mul_of_nonpos_right h2 (by linarith)
          constructor <;> linarith
      · intro h
        rcases h with h | h <;> linarith
    · have hd : 0 < a - v := by linarith
      refine ⟨(a - 1) / (a - v), div_nonneg (by linarith) hd.le, ?_, ?_, ?_, ?_⟩
      · rw [div_le_one hd]
        linarith
      · intro τ' h1 h2
        have h3 : a - 1 ≤ τ' * (a - v) := by
          rw [div_le_iff hd] at h1
          linarith
        have h4 : τ' * (a - v) ≤ 1 * (a - v) := mul_le_mul_of_nonneg_right h2 hd.le
        constructor <;> nlinarith
      · intro _
        right
        field_simp
        ring
      · intro h
        linarith [h.2]

theorem squareCrossing (sstar ustar s u : ℝ)
    (hs0 : 0 ≤ s) (hs1 : s ≤ 1) (hu0 : 0 ≤ u) (hu1 : u ≤ 1)
    (hout : sstar < 0 ∨ 1 < sstar ∨ ustar < 0 ∨ 1 < ustar) :
    ∃ τ : ℝ, 0 ≤ τ ∧ τ ≤ 1 ∧
      0 ≤ sstar + τ * (s - sstar) ∧ sstar + τ * (s - sstar) ≤ 1 ∧
      0 ≤ ustar + τ * (u - ustar) ∧ ustar + τ * (u - ustar) ≤ 1 ∧
      (sstar + τ * (s - sstar) = 0 ∨ sstar + τ * (s - sstar) = 1 ∨
        ustar + τ * (u - ustar) = 0 ∨ ustar + τ * (u - ustar) = 1) := by
  rcases segEntry sstar s hs0 hs1 with ⟨τs, hτs0, hτs1, hsIn, hsBd, hsZero⟩
  rcases segEntry ustar u hu0 hu1 with ⟨τu, hτu0, hτu1, huIn, huBd, huZero⟩
  refine ⟨max τs τu, le_trans hτs0 (le_max_left _ _), max_le hτs1 hτu1,
    (hsIn _ (le_max_left _ _) (max_le hτs1 hτu1)).1,
    (hsIn _ (le_max_left _ _) (max_le hτs1 hτu1)).2,
    (huIn _ (le_max_right _ _) (max_le hτs1 hτu1)).1,
    (huIn _ (le_max_right _ _) (max_le hτs1 hτu1)).2, ?_⟩
  by_cases hsv : sstar < 0 ∨ 1 < sstar
  · by_cases huv : ustar < 0 ∨ 1 < ustar
    · rcases max_choice τs τu with hm | hm <;> rw [hm]
      · rcases hsBd hsv with h | h
        · exact Or.inl h
        · exact Or.inr (Or.inl h)
      · rcases huBd huv with h | h
        · exact Or.inr (Or.inr (Or.inl h))
        · exact Or.inr (Or.inr (Or.inr h))
    · push_neg at huv
      have hτu : τu = 0 := huZero ⟨huv.1, huv.2⟩
      rw [hτu, max_eq_left hτs0]
      rcases hsBd hsv with h | h
      · exact Or.inl h
      · exact Or.inr (Or.inl h)
  · have huv : ustar < 0 ∨ 1 < ustar := by tauto
    push_neg at hsv
    have hτs : τs = 0 := hsZero ⟨hsv.1, hsv.2⟩
    rw [hτs, max_eq_right hτu0]
    rcases huBd huv with h | h
    · exact Or.inr (Or.inr (Or.inl h))
    · exact Or.inr (Or.inr (Or.inr h))

/-! ## The segment-segment distance is a true minimum -/

theorem intersectPt (a1 a2 b1 b2 : Pt) (h : detOf a1 a2 b1 b2 ≠ 0) :
    a1.1 + sParam a1 a2 b1 b2 * (a2.1 - a1.1) = b1.1 + uParam a1 a2 b1 b2 * (b2.1 - b1.1) ∧
      a1.2 + sParam a1 a2 b1 b2 * (a2.2 - a1.2) = b1.2 + uParam a1 a2 b1 b2 * (b2.2 - b1.2) := by
  unfold detOf crossQ at h
  unfold sParam uParam detOf crossQ
  constructor <;> field_simp <;> ring

theorem fScale (a1 a2 b1 b2 : Pt) (sstar ustar τ σ υ : ℝ)
    (hx : (a1.1 : ℝ) + sstar * ((a2.1 : ℝ) - (a1.1 : ℝ)) =
      (b1.1 : ℝ) + ustar * ((b2.1 : ℝ) - (b1.1 : ℝ)))
    (hy : (a1.2 : ℝ) + sstar * ((a2.2 : ℝ) - (a1.2 : ℝ)) =
      (b1.2 : ℝ) + ustar * ((b2.2 : ℝ) - (b1.2 : ℝ))) :
    sqDistR (lerpR (castPt a1) (castPt a2) (sstar + τ * (σ - sstar)))
        (lerpR (castPt b1) (castPt b2) (ustar + τ * (υ - ustar))) =
      τ ^ 2 * sqDistR (lerpR (castPt a1) (castPt a2) σ) (lerpR (castPt b1) (castPt b2) υ) := by
  have hX : ((a1.1 : ℝ) + (sstar + τ * (σ - sstar)) * ((a2.1 : ℝ) - (a1.1 : ℝ))) -
      ((b1.1 : ℝ) + (ustar + τ * (υ - ustar)) * ((b2.1 : ℝ) - (b1.1 : ℝ))) =
      τ * (((a1.1 : ℝ) + σ * ((a2.1 : ℝ) - (a1.1 : ℝ))) -
        ((b1.1 : ℝ) + υ * ((b2.1 : ℝ) - (b1.1 : ℝ)))) := by
    linear_combination (1 - τ) * hx
  have hY : ((a1.2 : ℝ) + (sstar + τ * (σ - sstar)) * ((a2.2 : ℝ) - (a1.2 : ℝ))) -
      ((b1.2 : ℝ) + (ustar + τ * (υ - ustar)) * ((b2.2 : ℝ) - (b1.2 : ℝ))) =
      τ * (((a1.2 : ℝ) + σ * ((a2.2 : ℝ) - (a1.2 : ℝ))) -
        ((b1.2 : ℝ) + υ * ((b2.2 : ℝ) - (b1.2 : ℝ)))) := by
    linear_combination (1 - τ) * hy
  unfold sqDistR lerpR castPt
  rw [hX, hY]
  ring

theorem fParallelShift (a1 a2 b1 b2 : Pt) (lam : ℝ)
    (hl1 : (b2.1 : ℝ) - (b1.1 : ℝ) = lam * ((a2.1 : ℝ) - (a1.1 : ℝ)))
    (hl2 : (b2.2 : ℝ) - (b1.2 : ℝ) = lam * ((a2.2 : ℝ) - (a1.2 : ℝ)))
    (σ υ σ' υ' : ℝ) (hshift : σ' - lam * υ' = σ - lam * υ) :
    sqDistR (lerpR (castPt a1) (castPt a2) σ') (lerpR (castPt b1) (castPt b2) υ') =
      sqDistR (lerpR (castPt a1) (castPt a2) σ) (lerpR (castPt b1) (castPt b2) υ) := by
  have hσ' : σ' = σ - lam * υ + lam * υ' := by linarith
  unfold sqDistR lerpR castPt
  rw [hl1, hl2, hσ']
  ring

theorem min4Q_le_outside (a1 a2 b1 b2 : Pt) (s u : ℝ)
    (hs0 : 0 ≤ s) (hs1 : s ≤ 1) (hu0 : 0 ≤ u) (hu1 : u ≤ 1)
    (hdet : detOf a1 a2 b1 b2 ≠ 0)
    (hout : ¬(0 ≤ sParam a1 a2 b1 b2 ∧ sParam a1 a2 b1 b2 ≤ 1 ∧
      0 ≤ uParam a1 a2 b1 b2 ∧ uParam a1 a2 b1 b2 ≤ 1)) :
    ((min4Q a1 a2 b1 b2 : ℚ) : ℝ) ≤
      sqDistR (lerpR (castPt a1) (castPt a2) s) (lerpR (castPt b1) (castPt b2) u) := by
  rcases intersectPt a1 a2 b1 b2 hdet with ⟨hx, hy⟩
  have hxR : (a1.1 : ℝ) + ((sParam a1 a2 b1 b2 : ℚ) : ℝ) * ((a2.1 : ℝ) - (a1.1 : ℝ)) =
      (b1.1 : ℝ) + ((uParam a1 a2 b1 b2 : ℚ) : ℝ) * ((b2.1 : ℝ) - (b1.1 : ℝ)) := by
    exact_mod_cast hx
  have hyR : (a1.2 : ℝ) + ((sParam a1 a2 b1 b2 : ℚ) : ℝ) * ((a2.2 : ℝ) - (a1.2 : ℝ)) =
      (b1.2 : ℝ) + ((uParam a1 a2 b1 b2 : ℚ) : ℝ) * ((b2.2 : ℝ) - (b1.2 : ℝ)) := by
    exact_mod_cast hy
  have houtR : ((sParam a1 a2 b1 b2 : ℚ) : ℝ) < 0 ∨ 1 < ((sParam a1 a2 b1 b2 : ℚ) : ℝ) ∨
      ((uParam a1 a2 b1 b2 : ℚ) : ℝ) < 0 ∨ 1 < ((uParam a1 a2 b1 b2 : ℚ) : ℝ) := by
    rcases not_and_or.mp hout with h | h
    · exact Or.inl (by exact_mod_cast not_le.mp h)
    · rcases not_and_or.mp h with h | h
      · exact Or.inr (Or.inl (by exact_mod_cast not_le.mp h))
      · rcases not_and_or.mp h with h | h
        · exact Or.inr (Or.inr (Or.inl (by exact_mod_cast not_le.mp h)))
        · exact Or.inr (Or.inr (Or.inr (by exact_mod_cast not_le.mp h)))
  rcases squareCrossing ((sParam a1 a2 b1 b2 : ℚ) : ℝ) ((uParam a1 a2 b1 b2 : ℚ) : ℝ) s u
      hs0 hs1 hu0 hu1 houtR with ⟨τ, hτ0, hτ1, hp1, hp2, hp3, hp4, hbd⟩
  have hfs := fScale a1 a2 b1 b2 ((sParam a1 a2 b1 b2 : ℚ) : ℝ) ((uParam a1 a2 b1 b2 : ℚ) : ℝ)
    τ s u hxR hyR
  have hb := min4Q_le_boundary a1 a2 b1 b2 _ _ hp1 hp2 hp3 hp4 hbd
  rw [hfs] at hb
  have hfnn := sqDistR_nonneg (lerpR (castPt a1) (castPt a2) s)
    (lerpR (castPt b1) (castPt b2) u)
  have hτsq : τ ^ 2 ≤ 1 := by nlinarith
  nlinarith [mul_le_mul_of_nonneg_right hτsq hfnn]

theorem min4Q_le_parallel (a1 a2 b1 b2 : Pt) (s u : ℝ)
    (hs0 : 0 ≤ s) (hs1 : s ≤ 1) (hu0 : 0 ≤ u) (hu1 : u ≤ 1)
    (hdet : detOf a1 a2 b1 b2 = 0) :
    ((min4Q a1 a2 b1 b2 : ℚ) : ℝ) ≤
      sqDistR (lerpR (castPt a1) (castPt a2) s) (lerpR (castPt b1) (castPt b2) u) := by
  by_cases hA : sqDistQ a2 a1 = 0
  · rcases (sqDistQ_eq_zero_iff a2 a1).mp hA with ⟨h1, h2⟩
    have hAa : lerpR (castPt a1) (castPt a2) s = castPt a1 := by
      unfold lerpR castPt
      rw [h1, h2]
      simp
    rw [hAa]
    exact le_trans (by exact_mod_cast min4Q_le_1 a1 a2 b1 b2) (ptSegSq_le a1 b1 b2 u hu0 hu1)
  · by_cases hB : sqDistQ b2 b1 = 0
    · rcases (sqDistQ_eq_zero_iff b2 b1).mp hB with ⟨h1, h2⟩
      have hBb : lerpR (castPt b1) (castPt b2) u = castPt b1 := by
        unfold lerpR castPt
        rw [h1, h2]
        simp
      rw [hBb, sqDistR_comm]
      exact le_trans (by exact_mod_cast min4Q_le_3 a1 a2 b1 b2) (ptSegSq_le b1 a1 a2 s hs0 hs1)
    · obtain ⟨lam, hl1, hl2⟩ :
          ∃ lam : ℚ, b2.1 - b1.1 = lam * (a2.1 - a1.1) ∧ b2.2 - b1.2 = lam * (a2.2 - a1.2) := by
        unfold detOf crossQ at hdet
        have hne : a2.1 - a1.1 ≠ 0 ∨ a2.2 - a1.2 ≠ 0 := by
          by_contra hcon
          push_neg at hcon
          exact hA ((sqDistQ_eq_zero_iff a2 a1).mpr
            ⟨sub_eq_zero.mp hcon.1, sub_eq_zero.mp hcon.2⟩)
        rcases hne with hne | hne
        · refine ⟨(b2.1 - b1.1) / (a2.1 - a1.1), (div_mul_cancel₀ _ hne).symm, ?_⟩
          field_simp
          linear_combination hdet
        · refine ⟨(b2.2 - b1.2) / (a2.2 - a1.2), ?_, (div_mul_cancel₀ _ hne).symm⟩
          field_simp
          linear_combination -hdet
      have hl1R : (b2.1 : ℝ) - (b1.1 : ℝ) = ((lam : ℚ) : ℝ) * ((a2.1 : ℝ) - (a1.1 : ℝ)) := by
        exact_mod_cast hl1
      have hl2R : (b2.2 : ℝ) - (b1.2 : ℝ) = ((lam : ℚ) : ℝ) * ((a2.2 : ℝ) - (a1.2 : ℝ)) := by
        exact_mod_cast hl2
      set lamR : ℝ := ((lam : ℚ) : ℝ) with hlamR
      set c : ℝ := s - lamR * u with hc
      have hscu : s - c = lamR * u := by rw [hc]; ring
      rcases le_or_lt 0 c with hc0 | hc0
      · rcases le_or_lt c 1 with hc1 | hc1
        · have hshift : c - lamR * 0 = s - lamR * u := by rw [hc]; ring
          have hfeq := fParallelShift a1 a2 b1 b2 lamR hl1R hl2R s u c 0 hshift
          rw [← hfeq]
          exact min4Q_le_boundary a1 a2 b1 b2 c 0 hc0 hc1 le_rfl zero_le_one
            (Or.inr (Or.inr (Or.inl rfl)))
        · have hsc : s - c < 0 := by linarith
          set uu : ℝ := (1 - c) * u / (s - c) with huu
          have huu0 : 0 ≤ uu := by
            rw [huu, div_nonneg_iff]
            right
            exact ⟨mul_nonpos_of_nonpos_of_nonneg (by linarith) hu0, hsc.le⟩
          have huule : uu ≤ u := by
            rw [huu, div_le_iff_of_neg hsc]
            nlinarith
          have huu1 : uu ≤ 1 := le_trans huule hu1
          have hlu_ne : lamR * u ≠ 0 := by
            rw [← hscu]
            exact ne_of_lt hsc
          have hluu : lamR * uu = 1 - c := by
            rw [huu, hscu]
            field_simp
            ring
          have hshift : 1 - lamR * uu = s - lamR * u := by
            rw [hluu, ← hscu]
            ring
          have hfeq := fParallelShift a1 a2 b1 b2 lamR hl1R hl2R s u 1 uu hshift
          rw [← hfeq]
          exact min4Q_le_boundary a1 a2 b1 b2 1 uu zero_le_one le_rfl huu0 huu1
            (Or.inr (Or.inl rfl))
      · have hsc : 0 < s - c := by linarith
        set uu : ℝ := (0 - c) * u / (s - c) with huu
        have huu0 : 0 ≤ uu := div_nonneg (mul_nonneg (by linarith) hu0) hsc.le
        have huule : uu ≤ u := by
          rw [huu, div_le_iff hsc]
          nlinarith
        have huu1 : uu ≤ 1 := le_trans huule hu1
        have hlu_ne : lamR * u ≠ 0 := by
          rw [← hscu]
          exact ne_of_gt hsc
        have hluu : lamR * uu = 0 - c := by
          rw [huu, hscu]
          field_simp
          ring
        have hshift : 0 - lamR * uu = s - lamR * u := by
          rw [hluu, ← hscu]
          ring
        have hfeq := fParallelShift a1 a2 b1 b2 lamR hl1R hl2R s u 0 uu hshift
        rw [← hfeq]
        exact min4Q_le_boundary a1 a2 b1 b2 0 uu le_rfl zero_le_one huu0 huu1 (Or.inl rfl)

theorem segSeg_le (a1 a2 b1 b2 : Pt) (s u : ℝ)
    (hs0 : 0 ≤ s) (hs1 : s ≤ 1) (hu0 : 0 ≤ u) (hu1 : u ≤ 1) :
    ((segSegSqDist a1 a2 b1 b2 : ℚ) : ℝ) ≤
      sqDistR (lerpR (castPt a1) (castPt a2) s) (lerpR (castPt b1) (castPt b2) u) := by
  unfold segSegSqDist
  by_cases hdet : detOf a1 a2 b1 b2 = 0
  · rw [if_pos hdet]
    exact min4Q_le_parallel a1 a2 b1 b2 s u hs0 hs1 hu0 hu1 hdet
  · rw [if_neg hdet]
    by_cases hin : 0 ≤ sParam a1 a2 b1 b2 ∧ sParam a1 a2 b1 b2 ≤ 1 ∧
        0 ≤ uParam a1 a2 b1 b2 ∧ uParam a1 a2 b1 b2 ≤ 1
    · rw [if_pos hin]
      push_cast
      exact sqDistR_nonneg _ _
    · rw [if_neg hin]
      exact min4Q_le_outside a1 a2 b1 b2 s u hs0 hs1 hu0 hu1 hdet hin

theorem segSeg_achieve (a1 a2 b1 b2 : Pt) :
    ∃ s u : ℝ, 0 ≤ s ∧ s ≤ 1 ∧ 0 ≤ u ∧ u ≤ 1 ∧
      sqDistR (lerpR (castPt a1) (castPt a2) s) (lerpR (castPt b1) (castPt b2) u) =
        ((segSegSqDist a1 a2 b1 b2 : ℚ) : ℝ) := by
  unfold segSegSqDist
  by_cases hdet : detOf a1 a2 b1 b2 = 0
  · rw [if_pos hdet]
    exact min4Q_achieve a1 a2 b1 b2
  · rw [if_neg hdet]
    by_cases hin : 0 ≤ sParam a1 a2 b1 b2 ∧ sParam a1 a2 b1 b2 ≤ 1 ∧
        0 ≤ uParam a1 a2 b1 b2 ∧ uParam a1 a2 b1 b2 ≤ 1
    · rw [if_pos hin]
      obtain ⟨h1, h2, h3, h4⟩ := hin
      rcases intersectPt a1 a2 b1 b2 hdet with ⟨hx, hy⟩
      have hxR : (a1.1 : ℝ) + ((sParam a1 a2 b1 b2 : ℚ) : ℝ) * ((a2.1 : ℝ) - (a1.1 : ℝ)) =
          (b1.1 : ℝ) + ((uParam a1 a2 b1 b2 : ℚ) : ℝ) * ((b2.1 : ℝ) - (b1.1 : ℝ)) := by
        exact_mod_cast hx
      have hyR : (a1.2 : ℝ) + ((sParam a1 a2 b1 b2 : ℚ) : ℝ) * ((a2.2 : ℝ) - (a1.2 : ℝ)) =
          (b1.2 : ℝ) + ((uParam a1 a2 b1 b2 : ℚ) : ℝ) * ((b2.2 : ℝ) - (b1.2 : ℝ)) := by
        exact_mod_cast hy
      refine ⟨((sParam a1 a2 b1 b2 : ℚ) : ℝ), ((uParam a1 a2 b1 b2 : ℚ) : ℝ),
        by exact_mod_cast h1, by exact_mod_cast h2, by exact_mod_cast h3,
        by exact_mod_cast h4, ?_⟩
      unfold sqDistR lerpR castPt
      push_cast
      linear_combination
        (((a1.1 : ℝ) + ((sParam a1 a2 b1 b2 : ℚ) : ℝ) * ((a2.1 : ℝ) - (a1.1 : ℝ))) -
          ((b1.1 : ℝ) + ((uParam a1 a2 b1 b2 : ℚ) : ℝ) * ((b2.1 : ℝ) - (b1.1 : ℝ)))) * hxR +
        (((a1.2 : ℝ) + ((sParam a1 a2 b1 b2 : ℚ) : ℝ) * ((a2.2 : ℝ) - (a1.2 : ℝ))) -
          ((b1.2 : ℝ) + ((uParam a1 a2 b1 b2 : ℚ) : ℝ) * ((b2.2 : ℝ) - (b1.2 : ℝ)))) * hyR
    · rw [if_neg hin]
      exact min4Q_achieve a1 a2 b1 b2

/-! ## From segments to whole geometries -/

theorem segsOf_ne_nil {g : Geom} (h : g ≠ []) : segsOf g ≠ [] := by
  match g with
  | [] => exact absurd rfl h
  | [p] => simp [segsOf]
  | p :: q :: rest => simp [segsOf]

theorem segsOf_endpoints_mem {g : Geom} {sa : Pt × Pt} (h : sa ∈ segsOf g) :
    sa.1 ∈ g ∧ sa.2 ∈ g := by
  match g with
  | [] => simp [segsOf] at h
  | [p] =>
    simp [segsOf] at h
    subst h
    simp
  | p :: q :: rest =>
    simp only [segsOf, List.mem_cons] at h
    rcases h with h | h
    · subst h
      simp
    · rcases segsOf_endpoints_mem h with ⟨h1, h2⟩
      exact ⟨List.mem_cons_of_mem p h1, List.mem_cons_of_mem p h2⟩

theorem mem_pointSet {g : Geom} {p : ℝ × ℝ} :
    p ∈ pointSet g ↔ ∃ sa ∈ segsOf g, p ∈ segPts (castPt sa.1) (castPt sa.2) := by
  unfold pointSet
  simp

theorem mem_segPts {c d : ℝ × ℝ} {p : ℝ × ℝ} :
    p ∈ segPts c d ↔ ∃ u : ℝ, 0 ≤ u ∧ u ≤ 1 ∧ p = lerpR c d u := Iff.rfl

theorem pointSet_nonempty {g : Geom} (h : g ≠ []) : ∃ p, p ∈ pointSet g := by
  rcases hs : segsOf g with _ | ⟨sa, rest⟩
  · exact absurd hs (segsOf_ne_nil h)
  · refine ⟨castPt sa.1, mem_pointSet.mpr ⟨sa, by rw [hs]; exact List.mem_cons_self _ _, ?_⟩⟩
    exact mem_segPts.mpr ⟨0, le_refl 0, zero_le_one, (lerpR_zero _ _).symm⟩

theorem sqDistList_mem {A B : Geom} {sa sb : Pt × Pt}
    (ha : sa ∈ segsOf A) (hb : sb ∈ segsOf B) :
    segSegSqDist sa.1 sa.2 sb.1 sb.2 ∈ sqDistList A B := by
  unfold sqDistList
  rw [List.mem_flatMap]
  exact ⟨sa, ha, List.mem_map.mpr ⟨sb, hb, rfl⟩⟩

theorem sqDistList_sources {A B : Geom} {x : ℚ} (hx : x ∈ sqDistList A B) :
    ∃ sa ∈ segsOf A, ∃ sb ∈ segsOf B, x = segSegSqDist sa.1 sa.2 sb.1 sb.2 := by
  unfold sqDistList at hx
  rw [List.mem_flatMap] at hx
  rcases hx with ⟨sa, ha, hx⟩
  rcases List.mem_map.mp hx with ⟨sb, hb, hxx⟩
  exact ⟨sa, ha, sb, hb, hxx.symm⟩

theorem sqDistList_ne_nil {A B : Geom} (hA : A ≠ []) (hB : B ≠ []) :
    ∃ m, listMinQ (sqDistList A B) = some m := by
  rcases hsa : segsOf A with _ | ⟨sa, ra⟩
  · exact absurd hsa (segsOf_ne_nil hA)
  · rcases hsb : segsOf B with _ | ⟨sb, rb⟩
    · exact absurd hsb (segsOf_ne_nil hB)
    · refine listMinQ_isSome_of_mem (@sqDistList_mem A B sa sb ?_ ?_)
      · rw [hsa]; exact List.mem_cons_self _ _
      · rw [hsb]; exact List.mem_cons_self _ _

theorem polyMin_le {A B : Geom} {m : ℚ} (hm : listMinQ (sqDistList A B) = some m)
    {p q : ℝ × ℝ} (hp : p ∈ pointSet A) (hq : q ∈ pointSet B) :
    ((m : ℚ) : ℝ) ≤ sqDistR p q := by
  rcases mem_pointSet.mp hp with ⟨sa, ha, hpseg⟩
  rcases mem_pointSet.mp hq with ⟨sb, hb, hqseg⟩
  rcases mem_segPts.mp hpseg with ⟨s, hs0, hs1, hps⟩
  rcases mem_segPts.mp hqseg with ⟨u, hu0, hu1, hqu⟩
  have hmem := sqDistList_mem ha hb
  have hle : m ≤ segSegSqDist sa.1 sa.2 sb.1 sb.2 := listMinQ_le hm _ hmem
  have hleR : ((m : ℚ) : ℝ) ≤ ((segSegSqDist sa.1 sa.2 sb.1 sb.2 : ℚ) : ℝ) := by
    exact_mod_cast hle
  rw [hps, hqu]
  exact le_trans hleR (segSeg_le sa.1 sa.2 sb.1 sb.2 s u hs0 hs1 hu0 hu1)

theorem polyMin_achieve {A B : Geom} {m : ℚ} (hm : listMinQ (sqDistList A B) = some m) :
    ∃ p ∈ pointSet A, ∃ q ∈ pointSet B, sqDistR p q = ((m : ℚ) : ℝ) := by
  rcases sqDistList_sources (listMinQ_mem hm) with ⟨sa, ha, sb, hb, hsq⟩
  rcases segSeg_achieve sa.1 sa.2 sb.1 sb.2 with ⟨s, u, hs0, hs1, hu0, hu1, hach⟩
  refine ⟨lerpR (castPt sa.1) (castPt sa.2) s,
    mem_pointSet.mpr ⟨sa, ha, mem_segPts.mpr ⟨s, hs0, hs1, rfl⟩⟩,
    lerpR (castPt sb.1) (castPt sb.2) u,
    mem_pointSet.mpr ⟨sb, hb, mem_segPts.mpr ⟨u, hu0, hu1, rfl⟩⟩, ?_⟩
  rw [hach, hsq]

theorem listMinQ_sqDist_nonneg {A B : Geom} {m : ℚ}
    (hm : listMinQ (sqDistList A B) = some m) : 0 ≤ m := by
  rcases polyMin_achieve hm with ⟨p, _, q, _, hpq⟩
  have : (0 : ℝ) ≤ ((m : ℚ) : ℝ) := hpq ▸ sqDistR_nonneg p q
  exact_mod_cast this

theorem minSeparation_eq_sqrt {A B : Geom} (hA : A ≠ []) (hB : B ≠ []) {m : ℚ}
    (hm : listMinQ (sqDistList A B) = some m) :
    minSeparation A B = Real.sqrt ((m : ℚ) : ℝ) := by
  unfold minSeparation
  have hmem : Real.sqrt ((m : ℚ) : ℝ) ∈
      {r : ℝ | ∃ p ∈ pointSet A, ∃ q ∈ pointSet B, r = Real.sqrt (sqDistR p q)} := by
    rcases polyMin_achieve hm with ⟨p, hp, q, hq, hpq⟩
    exact ⟨p, hp, q, hq, by rw [hpq]⟩
  have hlb : ∀ r ∈ {r : ℝ | ∃ p ∈ pointSet A, ∃ q ∈ pointSet B,
      r = Real.sqrt (sqDistR p q)}, Real.sqrt ((m : ℚ) : ℝ) ≤ r := by
    rintro r ⟨p, hp, q, hq, hr⟩
    rw [hr]
    exact Real.sqrt_le_sqrt (polyMin_le hm hp hq)
  refine le_antisymm (csInf_le ⟨Real.sqrt ((m : ℚ) : ℝ), hlb⟩ hmem) (le_csInf ⟨_, hmem⟩ hlb)

/-! ## The dilation-intersection test decides "minimum separation at most t" -/

theorem bufferIntersectsB_true_iff {A B : Geom} {t : ℚ} (ht : 0 < t)
    {m : ℚ} (hm : listMinQ (sqDistList A B) = some m) :
    bufferIntersectsB A t B = true ↔ m ≤ t ^ 2 := by
  unfold bufferIntersectsB
  rw [if_neg (not_le.mpr ht), hm]
  simp

theorem bufferIntersects_iff_minSep (A B : Geom) (hA : A ≠ []) (hB : B ≠ []) (t : ℚ)
    (ht : 0 < t) :
    bufferIntersectsB A t B = true ↔ minSeparation A B ≤ (t : ℝ) := by
  rcases sqDistList_ne_nil hA hB with ⟨m, hm⟩
  rw [bufferIntersectsB_true_iff ht hm, minSeparation_eq_sqrt hA hB hm]
  have hm0 : 0 ≤ m := listMinQ_sqDist_nonneg hm
  have hm0R : (0 : ℝ) ≤ ((m : ℚ) : ℝ) := by exact_mod_cast hm0
  have htR : (0 : ℝ) < (t : ℝ) := by exact_mod_cast ht
  constructor
  · intro h
    have hR : ((m : ℚ) : ℝ) ≤ ((t : ℚ) : ℝ) ^ 2 := by exact_mod_cast h
    calc Real.sqrt ((m : ℚ) : ℝ) ≤ Real.sqrt (((t : ℚ) : ℝ) ^ 2) := Real.sqrt_le_sqrt hR
      _ = (t : ℝ) := Real.sqrt_sq htR.le
  · intro h
    have hsq : ((m : ℚ) : ℝ) ≤ ((t : ℝ)) ^ 2 := by
      have h2 : Real.sqrt ((m : ℚ) : ℝ) ^ 2 ≤ ((t : ℝ)) ^ 2 :=
        pow_le_pow_left (Real.sqrt_nonneg _) h 2
      rwa [Real.sq_sqrt hm0R] at h2
    exact_mod_cast hsq

theorem sqDistList_nil_left (B : Geom) : sqDistList [] B = [] := rfl

theorem sqDistList_nil_right (A : Geom) : sqDistList A [] = [] := by
  unfold sqDistList
  rw [show segsOf ([] : Geom) = [] from rfl]
  simp

theorem bufferIntersectsB_false_left {B : Geom} {t : ℚ} :
    bufferIntersectsB [] t B = false := by
  unfold bufferIntersectsB
  rw [sqDistList_nil_left]
  split <;> rfl

theorem bufferIntersectsB_false_right {A : Geom} {t : ℚ} :
    bufferIntersectsB A t [] = false := by
  unfold bufferIntersectsB
  rw [sqDistList_nil_right]
  split <;> rfl

theorem minSeparation_comm (A B : Geom) : minSeparation A B = minSeparation B A := by
  unfold minSeparation
  congr 1
  ext r
  constructor
  · rintro ⟨p, hp, q, hq, hr⟩
    exact ⟨q, hq, p, hp, by rw [hr, sqDistR_comm]⟩
  · rintro ⟨p, hp, q, hq, hr⟩
    exact ⟨q, hq, p, hp, by rw [hr, sqDistR_comm]⟩

theorem bufferIntersectsB_comm (A B : Geom) (t : ℚ) :
    bufferIntersectsB A t B = bufferIntersectsB B t A := by
  rcases le_or_lt t 0 with ht | ht
  · unfold bufferIntersectsB
    rw [if_pos ht, if_pos ht]
  · by_cases hA : A = []
    · subst hA
      rw [bufferIntersectsB_false_left, bufferIntersectsB_false_right]
    · by_cases hB : B = []
      · subst hB
        rw [bufferIntersectsB_false_left, bufferIntersectsB_false_right]
      · rw [Bool.eq_iff_iff]
        rw [bufferIntersects_iff_minSep A B hA hB t ht,
          bufferIntersects_iff_minSep B A hB hA t ht, minSeparation_comm]

/-! ## Bounding boxes contain their geometries -/

theorem boxFold_mono (l : List Pt) (b0 : BoxQ) :
    (l.foldl (fun b q => ⟨min b.minx q.1, min b.miny q.2, max b.maxx q.1, max b.maxy q.2⟩)
        b0).minx ≤ b0.minx ∧
      (l.foldl (fun b q => ⟨min b.minx q.1, min b.miny q.2, max b.maxx q.1, max b.maxy q.2⟩)
        b0).miny ≤ b0.miny ∧
      b0.maxx ≤ (l.foldl
        (fun b q => ⟨min b.minx q.1, min b.miny q.2, max b.maxx q.1, max b.maxy q.2⟩) b0).maxx ∧
      b0.maxy ≤ (l.foldl
        (fun b q => ⟨min b.minx q.1, min b.miny q.2, max b.maxx q.1, max b.maxy q.2⟩) b0).maxy := by
  induction l generalizing b0 with
  | nil => exact ⟨le_refl _, le_refl _, le_refl _, le_refl _⟩
  | cons q l ih =>
    rcases ih ⟨min b0.minx q.1, min b0.miny q.2, max b0.maxx q.1, max b0.maxy q.2⟩ with
      ⟨h1, h2, h3, h4⟩
    exact ⟨le_trans h1 (min_le_left _ _), le_trans h2 (min_le_left _ _),
      le_trans (le_max_left _ _) h3, le_trans (le_max_left _ _) h4⟩

theorem boxFold_mem (l : List Pt) (b0 : BoxQ) {q : Pt} (hq : q ∈ l) :
    (l.foldl (fun b q => ⟨min b.minx q.1, min b.miny q.2, max b.maxx q.1, max b.maxy q.2⟩)
        b0).minx ≤ q.1 ∧
      (l.foldl (fun b q => ⟨min b.minx q.1, min b.miny q.2, max b.maxx q.1, max b.maxy q.2⟩)
        b0).miny ≤ q.2 ∧
      q.1 ≤ (l.foldl
        (fun b q => ⟨min b.minx q.1, min b.miny q.2, max b.maxx q.1, max b.maxy q.2⟩) b0).maxx ∧
      q.2 ≤ (l.foldl
        (fun b q => ⟨min b.minx q.1, min b.miny q.2, max b.maxx q.1, max b.maxy q.2⟩) b0).maxy := by
  induction l generalizing b0 with
  | nil => simp at hq
  | cons r l ih =>
    rcases List.mem_cons.mp hq with h | h
    · subst h
      rcases boxFold_mono l ⟨min b0.minx q.1, min b0.miny q.2, max b0.maxx q.1,
        max b0.maxy q.2⟩ with ⟨h1, h2, h3, h4⟩
      exact ⟨le_trans h1 (min_le_right _ _), le_trans h2 (min_le_right _ _),
        le_trans (le_max_right _ _) h3, le_trans (le_max_right _ _) h4⟩
    · exact ih _ h

theorem bboxOf_vertex {g : Geom} {b : BoxQ} (hb : bboxOf g = some b) {q : Pt} (hq : q ∈ g) :
    b.minx ≤ q.1 ∧ b.miny ≤ q.2 ∧ q.1 ≤ b.maxx ∧ q.2 ≤ b.maxy := by
  match g with
  | [] => simp at hq
  | p :: rest =>
    unfold bboxOf at hb
    have hbv := hb
    simp only [Option.some_inj] at hbv
    subst hbv
    rcases List.mem_cons.mp hq with h | h
    · subst h
      rcases boxFold_mono rest ⟨q.1, q.2, q.1, q.2⟩ with ⟨h1, h2, h3, h4⟩
      exact ⟨h1, h2, h3, h4⟩
    · exact boxFold_mem rest _ h

theorem bboxOf_isSome {g : Geom} (h : g ≠ []) : ∃ b, bboxOf g = some b := by
  match g with
  | [] => exact absurd rfl h
  | p :: rest => exact ⟨_, rfl⟩

theorem pointSet_in_bbox {g : Geom} {b : BoxQ} (hb : bboxOf g = some b)
    {p : ℝ × ℝ} (hp : p ∈ pointSet g) :
    (b.minx : ℝ) ≤ p.1 ∧ (b.miny : ℝ) ≤ p.2 ∧ p.1 ≤ (b.maxx : ℝ) ∧ p.2 ≤ (b.maxy : ℝ) := by
  rcases mem_pointSet.mp hp with ⟨sa, ha, hpseg⟩
  rcases mem_segPts.mp hpseg with ⟨u, hu0, hu1, hpu⟩
  rcases segsOf_endpoints_mem ha with ⟨h1, h2⟩
  rcases bboxOf_vertex hb h1 with ⟨c1, c2, c3, c4⟩
  rcases bboxOf_vertex hb h2 with ⟨d1, d2, d3, d4⟩
  have c1R : (b.minx : ℝ) ≤ ((sa.1.1 : ℚ) : ℝ) := by exact_mod_cast c1
  have c2R : (b.miny : ℝ) ≤ ((sa.1.2 : ℚ) : ℝ) := by exact_mod_cast c2
  have c3R : ((sa.1.1 : ℚ) : ℝ) ≤ (b.maxx : ℝ) := by exact_mod_cast c3
  have c4R : ((sa.1.2 : ℚ) : ℝ) ≤ (b.maxy : ℝ) := by exact_mod_cast c4
  have d1R : (b.minx : ℝ) ≤ ((sa.2.1 : ℚ) : ℝ) := by exact_mod_cast d1
  have d2R : (b.miny : ℝ) ≤ ((sa.2.2 : ℚ) : ℝ) := by exact_mod_cast d2
  have d3R : ((sa.2.1 : ℚ) : ℝ) ≤ (b.maxx : ℝ) := by exact_mod_cast d3
  have d4R : ((sa.2.2 : ℚ) : ℝ) ≤ (b.maxy : ℝ) := by exact_mod_cast d4
  rw [hpu]
  unfold lerpR castPt
  refine ⟨?_, ?_, ?_, ?_⟩ <;> simp only <;> nlinarith [mul_nonneg hu0 (sub_nonneg.mpr hu1)]

/-! ## The coarse spatial-index filter loses no pair the exact test accepts -/

theorem bufferIntersectsB_elim {A B : Geom} {t : ℚ} (h : bufferIntersectsB A t B = true) :
    0 < t ∧ ∃ m, listMinQ (sqDistList A B) = some m ∧ m ≤ t ^ 2 := by
  unfold bufferIntersectsB at h
  by_cases ht : t ≤ 0
  · rw [if_pos ht] at h
    exact absurd h (by simp)
  · rw [if_neg ht] at h
    rcases hm : listMinQ (sqDistList A B) with _ | m
    · rw [hm] at h
      exact absurd h (by simp)
    · rw [hm] at h
      simp only [decide_eq_true_eq] at h
      exact ⟨not_le.mp ht, m, rfl, h⟩

theorem ne_nil_of_listMinQ {A B : Geom} {m : ℚ}
    (hm : listMinQ (sqDistList A B) = some m) : A ≠ [] ∧ B ≠ [] := by
  constructor
  · intro hA
    subst hA
    rw [sqDistList_nil_left] at hm
    simp [listMinQ] at hm
  · intro hB
    subst hB
    rw [sqDistList_nil_right] at hm
    simp [listMinQ] at hm

theorem candidateB_of_test {geoms : List Geom} {t : ℚ} {i j : ℕ}
    (h : bufferIntersectsB (geoms.getD i []) t (geoms.getD j []) = true) :
    candidateB geoms t i j = true := by
  obtain ⟨ht, m, hm, hmt⟩ := bufferIntersectsB_elim h
  obtain ⟨hA, hB⟩ := ne_nil_of_listMinQ hm
  rcases bboxOf_isSome hA with ⟨bA, hbA⟩
  rcases bboxOf_isSome hB with ⟨bB, hbB⟩
  unfold candidateB bufferBoundsQ
  rw [if_neg (not_le.mpr ht), hbA, hbB]
  simp only [Option.map_some']
  unfold boxesIntersectB expandBox
  rw [decide_eq_true_eq]
  rcases polyMin_achieve hm with ⟨p, hp, q, hq, hpq⟩
  rcases pointSet_in_bbox hbA hp with ⟨pa1, pa2, pa3, pa4⟩
  rcases pointSet_in_bbox hbB hq with ⟨qb1, qb2, qb3, qb4⟩
  have htR : (0 : ℝ) < ((t : ℚ) : ℝ) := by exact_mod_cast ht
  have hsq : sqDistR p q ≤ ((t : ℚ) : ℝ) ^ 2 := by
    rw [hpq]
    have : ((m : ℚ) : ℝ) ≤ ((t ^ 2 : ℚ) : ℝ) := by exact_mod_cast hmt
    rw [Rat.cast_pow] at this
    exact this
  have hx1 : p.1 - q.1 ≤ ((t : ℚ) : ℝ) := by
    unfold sqDistR at hsq
    nlinarith [sq_nonneg (p.2 - q.2)]
  have hx2 : q.1 - p.1 ≤ ((t : ℚ) : ℝ) := by
    unfold sqDistR at hsq
    nlinarith [sq_nonneg (p.2 - q.2)]
  have hy1 : p.2 - q.2 ≤ ((t : ℚ) : ℝ) := by
    unfold sqDistR at hsq
    nlinarith [sq_nonneg (p.1 - q.1)]
  have hy2 : q.2 - p.2 ≤ ((t : ℚ) : ℝ) := by
    unfold sqDistR at hsq
    nlinarith [sq_nonneg (p.1 - q.1)]
  refine ⟨?_, ?_, ?_, ?_⟩
  · have hR : (bA.minx : ℝ) - ((t : ℚ) : ℝ) ≤ (bB.maxx : ℝ) := by linarith
    exact_mod_cast hR
  · have hR : (bB.minx : ℝ) ≤ (bA.maxx : ℝ) + ((t : ℚ) : ℝ) := by linarith
    exact_mod_cast hR
  · have hR : (bA.miny : ℝ) - ((t : ℚ) : ℝ) ≤ (bB.maxy : ℝ) := by linarith
    exact_mod_cast hR
  · have hR : (bB.miny : ℝ) ≤ (bA.maxy : ℝ) + ((t : ℚ) : ℝ) := by linarith
    exact_mod_cast hR

/-! ## Membership in the edge list -/

theorem mem_edgesOf {geoms : List Geom} {t : ℚ} {i j : ℕ} :
    (i, j) ∈ edgesOf geoms t ↔
      i < geoms.length ∧ j < geoms.length ∧ i < j ∧ candidateB geoms t i j = true ∧
        bufferIntersectsB (geoms.getD i []) t (geoms.getD j []) = true := by
  unfold edgesOf candidatesFor
  rw [List.mem_flatMap]
  constructor
  · rintro ⟨i', hi', hmem⟩
    rcases List.mem_map.mp hmem with ⟨j', hj', heq⟩
    have hii : i' = i := (Prod.mk.injEq _ _ _ _ ▸ heq).1
    have hjj : j' = j := (Prod.mk.injEq _ _ _ _ ▸ heq).2
    subst hii
    subst hjj
    rw [List.mem_filter] at hj'
    rcases hj' with ⟨hj'', hcond⟩
    rw [List.mem_filter] at hj''
    rcases hj'' with ⟨hrange, hcand⟩
    rw [Bool.and_eq_true] at hcond
    exact ⟨List.mem_range.mp hi', List.mem_range.mp hrange,
      of_decide_eq_true hcond.1, hcand, hcond.2⟩
  · rintro ⟨hi, hj, hij, hcand, htest⟩
    refine ⟨i, List.mem_range.mpr hi, List.mem_map.mpr ⟨j, ?_, rfl⟩⟩
    rw [List.mem_filter]
    refine ⟨?_, ?_⟩
    · rw [List.mem_filter]
      exact ⟨List.mem_range.mpr hj, hcand⟩
    · rw [Bool.and_eq_true]
      exact ⟨decide_eq_true hij, htest⟩

theorem mem_edgesOf_iff_test {geoms : List Geom} {t : ℚ} {i j : ℕ}
    (hj : j < geoms.length) (hij : i < j) :
    (i, j) ∈ edgesOf geoms t ↔
      bufferIntersectsB (geoms.getD i []) t (geoms.getD j []) = true := by
  rw [mem_edgesOf]
  constructor
  · rintro ⟨_, _, _, _, h⟩
    exact h
  · intro h
    exact ⟨lt_trans hij hj, hj, hij, candidateB_of_test h, h⟩

theorem edgesOf_increasing {geoms : List Geom} {t : ℚ} {e : ℕ × ℕ}
    (he : e ∈ edgesOf geoms t) : e.1 < e.2 ∧ e.1 < geoms.length ∧ e.2 < geoms.length := by
  rcases e with ⟨i, j⟩
  rcases mem_edgesOf.mp he with ⟨h1, h2, h3, _, _⟩
  exact ⟨h3, h1, h2⟩

theorem edgesOf_nodup (geoms : List Geom) (t : ℚ) : (edgesOf geoms t).Nodup := by
  unfold edgesOf
  rw [List.nodup_flatMap]
  constructor
  · intro i _
    refine List.Nodup.map ?_ (List.Nodup.filter _ (List.Nodup.filter _ (List.nodup_range _)))
    intro a b hab
    exact (Prod.mk.injEq _ _ _ _ ▸ hab).2
  · refine List.Pairwise.imp ?_ (List.pairwise_lt_range _)
    intro a b hab
    rw [Function.onFun, List.disjoint_left]
    rintro ⟨x, y⟩ hx hy
    rcases List.mem_map.mp hx with ⟨j1, _, he1⟩
    rcases List.mem_map.mp hy with ⟨j2, _, he2⟩
    have : a = x := (Prod.mk.injEq _ _ _ _ ▸ he1).1
    have hbx : b = x := (Prod.mk.injEq _ _ _ _ ▸ he2).1
    omega

/-! ## Correctness of the breadth-first component computation -/

theorem subset_adjStep (E : List (ℕ × ℕ)) (n : ℕ) (S : Finset ℕ) : S ⊆ adjStep E n S :=
  Finset.subset_union_left

theorem adjStep_subset (E : List (ℕ × ℕ)) (n : ℕ) (S : Finset ℕ) :
    adjStep E n S ⊆ S ∪ Finset.range n :=
  Finset.union_subset_union_right (Finset.filter_subset _ _)

theorem mem_reachFinset_self (E : List (ℕ × ℕ)) (n x : ℕ) : x ∈ reachFinset E n x := by
  unfold reachFinset
  have h : ∀ k : ℕ, ({x} : Finset ℕ) ⊆ (adjStep E n)^[k] {x} := by
    intro k
    induction k with
    | zero => simp
    | succ k ih =>
      rw [Function.iterate_succ_apply']
      exact le_trans ih (subset_adjStep E n _)
  exact h n (Finset.mem_singleton_self x)

theorem adjacentP_symm {E : List (ℕ × ℕ)} {x y : ℕ} (h : adjacentP E x y) : adjacentP E y x :=
  h.symm

theorem reachableIn_symm {E : List (ℕ × ℕ)} {x y : ℕ} (h : reachableIn E x y) :
    reachableIn E y x :=
  Relation.ReflTransGen.symmetric (fun _ _ hxy => adjacentP_symm hxy) h

theorem reachableIn_trans {E : List (ℕ × ℕ)} {x y z : ℕ} (h1 : reachableIn E x y)
    (h2 : reachableIn E y z) : reachableIn E x z :=
  Relation.ReflTransGen.trans h1 h2

theorem touchesB_sound {S : Finset ℕ} {E : List (ℕ × ℕ)} {j : ℕ}
    (h : touchesB S E j = true) : ∃ z ∈ S, adjacentP E z j := by
  unfold touchesB at h
  rw [List.any_eq_true] at h
  rcases h with ⟨e, he, hcond⟩
  rw [Bool.or_eq_true, Bool.and_eq_true, Bool.and_eq_true] at hcond
  rcases hcond with ⟨h1, h2⟩ | ⟨h1, h2⟩
  · refine ⟨e.1, of_decide_eq_true h1, Or.inl ?_⟩
    have h2' := of_decide_eq_true h2
    rw [← h2']
    exact he
  · refine ⟨e.2, of_decide_eq_true h1, Or.inr ?_⟩
    have h2' := of_decide_eq_true h2
    rw [← h2']
    exact he

theorem touchesB_complete {S : Finset ℕ} {E : List (ℕ × ℕ)} {z j : ℕ}
    (hz : z ∈ S) (hadj : adjacentP E z j) : touchesB S E j = true := by
  unfold touchesB
  rw [List.any_eq_true]
  rcases hadj with h | h
  · exact ⟨(z, j), h, by simp [hz]⟩
  · exact ⟨(j, z), h, by simp [hz]⟩

theorem reachFinset_sound {E : List (ℕ × ℕ)} {n x : ℕ} :
    ∀ y ∈ reachFinset E n x, reachableIn E x y := by
  unfold reachFinset
  have h : ∀ (k : ℕ) (S : Finset ℕ), (∀ y ∈ S, reachableIn E x y) →
      ∀ y ∈ (adjStep E n)^[k] S, reachableIn E x y := by
    intro k
    induction k with
    | zero => intro S hS y hy; exact hS y hy
    | succ k ih =>
      intro S hS y hy
      rw [Function.iterate_succ_apply'] at hy
      rcases Finset.mem_union.mp hy with hy | hy
      · exact ih S hS y hy
      · rcases Finset.mem_filter.mp hy with ⟨_, htouch⟩
        rcases touchesB_sound htouch with ⟨z, hz, hadj⟩
        exact Relation.ReflTransGen.tail (ih S hS z hz) hadj
  intro y hy
  refine h n {x} ?_ y hy
  intro y hy
  rw [Finset.mem_singleton] at hy
  subst hy
  exact Relation.ReflTransGen.refl

theorem reachFinset_subset {E : List (ℕ × ℕ)} {n x : ℕ} :
    reachFinset E n x ⊆ insert x (Finset.range n) := by
  unfold reachFinset
  have h : ∀ k : ℕ, (adjStep E n)^[k] {x} ⊆ insert x (Finset.range n) := by
    intro k
    induction k with
    | zero => simp
    | succ k ih =>
      rw [Function.iterate_succ_apply']
      refine subset_trans (adjStep_subset E n _) ?_
      exact Finset.union_subset ih (fun y hy => Finset.mem_insert_of_mem hy)
  exact h n

theorem adjStep_fixed_iterate {E : List (ℕ × ℕ)} {n : ℕ} {S : Finset ℕ}
    (h : adjStep E n S = S) : ∀ m : ℕ, (adjStep E n)^[m] S = S := by
  intro m
  induction m with
  | zero => rfl
  | succ m ih => rw [Function.iterate_succ_apply', ih, h]

theorem reachFinset_closed {E : List (ℕ × ℕ)} {n x : ℕ} (hx : x < n) :
    adjStep E n (reachFinset E n x) = reachFinset E n x := by
  by_cases hstab : ∃ k, k < n ∧
      (adjStep E n)^[k + 1] {x} = (adjStep E n)^[k] {x}
  · rcases hstab with ⟨k, hk, hfix⟩
    have hfixed : adjStep E n ((adjStep E n)^[k] {x}) = (adjStep E n)^[k] {x} :=
      calc adjStep E n ((adjStep E n)^[k] {x}) = (adjStep E n)^[k + 1] {x} :=
            (Function.iterate_succ_apply' _ _ _).symm
        _ = (adjStep E n)^[k] {x} := hfix
    have hall : ∀ m : ℕ, (adjStep E n)^[m] ((adjStep E n)^[k] {x}) = (adjStep E n)^[k] {x} :=
      adjStep_fixed_iterate hfixed
    have hn : reachFinset E n x = (adjStep E n)^[k] {x} := by
      unfold reachFinset
      have hsplit : (adjStep E n)^[n] {x} = (adjStep E n)^[n - k] ((adjStep E n)^[k] {x}) := by
        rw [← Function.iterate_add_apply]
        congr 1
        omega
      rw [hsplit]
      exact hall (n - k)
    rw [hn]
    exact hfixed
  · exfalso
    push_neg at hstab
    have hgrow : ∀ k : ℕ, k ≤ n → k + 1 ≤ ((adjStep E n)^[k] {x}).card := by
      intro k
      induction k with
      | zero => simp
      | succ k ih =>
        intro hk
        have hk' : k ≤ n := by omega
        have hne := hstab k (by omega)
        have hsub : (adjStep E n)^[k] {x} ⊆ (adjStep E n)^[k + 1] {x} := by
          rw [Function.iterate_succ_apply']
          exact subset_adjStep E n _
        have hss : (adjStep E n)^[k] {x} ⊂ (adjStep E n)^[k + 1] {x} :=
          lt_of_le_of_ne hsub (fun hEq => hne hEq.symm)
        have := Finset.card_lt_card hss
        have := ih hk'
        omega
    have hcard : n + 1 ≤ (reachFinset E n x).card := hgrow n (le_refl n)
    have hsub : reachFinset E n x ⊆ Finset.range n := by
      refine subset_trans reachFinset_subset ?_
      exact Finset.insert_subset (Finset.mem_range.mpr hx) (Finset.Subset.refl _)
    have := Finset.card_le_card hsub
    rw [Finset.card_range] at this
    omega

theorem edgesOf_wf {geoms : List Geom} {t : ℚ} :
    ∀ e ∈ edgesOf geoms t, e.1 < geoms.length ∧ e.2 < geoms.length := by
  intro e he
  exact (edgesOf_increasing he).2

theorem reachFinset_complete {E : List (ℕ × ℕ)} {n x : ℕ} (hx : x < n)
    (hwf : ∀ e ∈ E, e.1 < n ∧ e.2 < n) {y : ℕ} (h : reachableIn E x y) :
    y ∈ reachFinset E n x := by
  induction h with
  | refl => exact mem_reachFinset_self E n x
  | @tail z y' hxz hadj ih =>
    rw [← reachFinset_closed hx]
    unfold adjStep
    rw [Finset.mem_union]
    right
    rw [Finset.mem_filter]
    have hy' : y' < n := by
      rcases hadj with h | h
      · exact (hwf _ h).2
      · exact (hwf _ h).1
    exact ⟨Finset.mem_range.mpr hy', touchesB_complete ih hadj⟩

theorem mem_reachFinset_iff {E : List (ℕ × ℕ)} {n x : ℕ} (hx : x < n)
    (hwf : ∀ e ∈ E, e.1 < n ∧ e.2 < n) {y : ℕ} :
    y ∈ reachFinset E n x ↔ reachableIn E x y ∧ y < n := by
  constructor
  · intro h
    refine ⟨reachFinset_sound y h, ?_⟩
    have := reachFinset_subset h
    rcases Finset.mem_insert.mp this with h' | h'
    · omega
    · exact Finset.mem_range.mp h'
  · rintro ⟨h, _⟩
    exact reachFinset_complete hx hwf h

/-! ## Components are the reachability classes, enumerated by minimal node -/

theorem mem_repsList {E : List (ℕ × ℕ)} {n x : ℕ} :
    x ∈ repsList E n ↔ x < n ∧ isRepB E n x = true := by
  unfold repsList
  rw [List.mem_filter, List.mem_range]

theorem mem_classComp {E : List (ℕ × ℕ)} {n x i : ℕ} :
    i ∈ classComp E n x ↔ i < n ∧ i ∈ reachFinset E n x := by
  unfold classComp
  rw [List.mem_filter, List.mem_range, decide_eq_true_eq]

theorem reachFinset_congr {E : List (ℕ × ℕ)} {n x y : ℕ} (hx : x < n) (hy : y < n)
    (hwf : ∀ e ∈ E, e.1 < n ∧ e.2 < n) (h : reachableIn E x y) :
    reachFinset E n x = reachFinset E n y := by
  ext z
  rw [mem_reachFinset_iff hx hwf, mem_reachFinset_iff hy hwf]
  constructor
  · rintro ⟨hz, hzn⟩
    exact ⟨reachableIn_trans (reachableIn_symm h) hz, hzn⟩
  · rintro ⟨hz, hzn⟩
    exact ⟨reachableIn_trans h hz, hzn⟩

theorem minRep_mem_reps {E : List (ℕ × ℕ)} {n x : ℕ} (hx : x < n)
    (hwf : ∀ e ∈ E, e.1 < n ∧ e.2 < n) :
    (reachFinset E n x).min' ⟨x, mem_reachFinset_self E n x⟩ ∈ repsList E n ∧
      reachableIn E x ((reachFinset E n x).min' ⟨x, mem_reachFinset_self E n x⟩) := by
  have hmem : (reachFinset E n x).min' ⟨x, mem_reachFinset_self E n x⟩ ∈ reachFinset E n x :=
    Finset.min'_mem _ _
  rcases (mem_reachFinset_iff hx hwf).mp hmem with ⟨hre, hlt⟩
  refine ⟨mem_repsList.mpr ⟨hlt, ?_⟩, hre⟩
  rw [isRepB, decide_eq_true_eq]
  intro y hy
  have hEq := reachFinset_congr hx hlt hwf hre
  rw [← hEq] at hy
  exact Finset.min'_le _ _ hy

theorem rep_unique {E : List (ℕ × ℕ)} {n x1 x2 : ℕ}
    (h1 : x1 ∈ repsList E n) (h2 : x2 ∈ repsList E n)
    (hwf : ∀ e ∈ E, e.1 < n ∧ e.2 < n) (h : reachableIn E x1 x2) : x1 = x2 := by
  rcases mem_repsList.mp h1 with ⟨hx1, hr1⟩
  rcases mem_repsList.mp h2 with ⟨hx2, hr2⟩
  rw [isRepB, decide_eq_true_eq] at hr1 hr2
  have hm1 : x2 ∈ reachFinset E n x1 := reachFinset_complete hx1 hwf h
  have hm2 : x1 ∈ reachFinset E n x2 := reachFinset_complete hx2 hwf (reachableIn_symm h)
  exact le_antisymm (hr1 x2 hm1) (hr2 x1 hm2)

theorem exists_rep {E : List (ℕ × ℕ)} {n i : ℕ} (hi : i < n)
    (hwf : ∀ e ∈ E, e.1 < n ∧ e.2 < n) :
    ∃ x, x ∈ repsList E n ∧ i ∈ reachFinset E n x := by
  rcases minRep_mem_reps hi hwf with ⟨hmem, hre⟩
  refine ⟨_, hmem, ?_⟩
  rcases mem_repsList.mp hmem with ⟨hlt, _⟩
  exact reachFinset_complete hlt hwf (reachableIn_symm hre)

theorem componentsOf_get {E : List (ℕ × ℕ)} {n k : ℕ}
    (hk : k < (componentsOf E n).length) :
    ∃ hk' : k < (repsList E n).length,
      (componentsOf E n)[k] = classComp E n ((repsList E n)[k]) := by
  unfold componentsOf at hk ⊢
  rw [List.length_map] at hk
  exact ⟨hk, List.getElem_map _⟩

theorem labelOf_eq_of_mem {E : List (ℕ × ℕ)} {n i k : ℕ}
    (hwf : ∀ e ∈ E, e.1 < n ∧ e.2 < n)
    (hk : k < (componentsOf E n).length) (hmem : i ∈ (componentsOf E n)[k]) :
    labelOf E n i = some k := by
  unfold labelOf
  rw [List.findIdx?_eq_some_iff_getElem]
  refine ⟨hk, by rw [decide_eq_true_eq]; exact hmem, ?_⟩
  intro j hjk
  rw [Bool.not_eq_true, decide_eq_false_iff_not]
  intro hmemj
  have hj : j < (componentsOf E n).length := lt_trans hjk hk
  rcases componentsOf_get hk with ⟨hk', hgetk⟩
  rcases componentsOf_get hj with ⟨hj', hgetj⟩
  rw [hgetk] at hmem
  rw [hgetj] at hmemj
  rcases mem_classComp.mp hmem with ⟨hin, hik⟩
  rcases mem_classComp.mp hmemj with ⟨_, hij⟩
  have hreps_k : (repsList E n)[k] ∈ repsList E n := List.getElem_mem _
  have hreps_j : (repsList E n)[j] ∈ repsList E n := List.getElem_mem _
  have hre : reachableIn E ((repsList E n)[k]) ((repsList E n)[j]) :=
    reachableIn_trans (reachFinset_sound _ hik) (reachableIn_symm (reachFinset_sound _ hij))
  have heq := rep_unique hreps_k hreps_j hwf hre
  have hnd : (repsList E n).Nodup := List.Nodup.filter _ (List.nodup_range n)
  have := List.Nodup.getElem_inj_iff hnd |>.mp heq.symm
  omega

theorem labelOf_total {E : List (ℕ × ℕ)} {n i : ℕ} (hi : i < n)
    (hwf : ∀ e ∈ E, e.1 < n ∧ e.2 < n) :
    ∃ k, labelOf E n i = some k ∧ k < (componentsOf E n).length := by
  rcases exists_rep hi hwf with ⟨x, hx, hix⟩
  rcases List.mem_iff_getElem.mp hx with ⟨k, hk, hgx⟩
  have hklen : k < (componentsOf E n).length := by
    unfold componentsOf
    rw [List.length_map]
    exact hk
  refine ⟨k, labelOf_eq_of_mem hwf hklen ?_, hklen⟩
  rcases componentsOf_get hklen with ⟨hk', hget⟩
  rw [hget]
  have : (repsList E n)[k] = x := hgx
  rw [this]
  exact mem_classComp.mpr ⟨hi, hix⟩

theorem labelOf_mem {E : List (ℕ × ℕ)} {n i k : ℕ} (h : labelOf E n i = some k) :
    ∃ hk : k < (componentsOf E n).length, i ∈ (componentsOf E n)[k] := by
  unfold labelOf at h
  rw [List.findIdx?_eq_some_iff_getElem] at h
  rcases h with ⟨hk, hp, _⟩
  rw [decide_eq_true_eq] at hp
  exact ⟨hk, hp⟩

theorem labelOf_lt {E : List (ℕ × ℕ)} {n i : ℕ} (hi : i < n)
    (hwf : ∀ e ∈ E, e.1 < n ∧ e.2 < n) {k : ℕ} (h : labelOf E n i = some k) :
    k < (componentsOf E n).length :=
  (labelOf_mem h).1

theorem labelOf_iff_reachable {E : List (ℕ × ℕ)} {n i j : ℕ} (hi : i < n) (hj : j < n)
    (hwf : ∀ e ∈ E, e.1 < n ∧ e.2 < n) :
    labelOf E n i = labelOf E n j ↔ reachableIn E i j := by
  rcases labelOf_total hi hwf with ⟨ki, hki, hkilen⟩
  rcases labelOf_total hj hwf with ⟨kj, hkj, hkjlen⟩
  constructor
  · intro h
    rw [hki, hkj] at h
    have hkk : ki = kj := Option.some_inj.mp h
    subst hkk
    rcases labelOf_mem hki with ⟨hk1, hmi⟩
    rcases labelOf_mem hkj with ⟨hk2, hmj⟩
    rcases componentsOf_get hk1 with ⟨hk', hget⟩
    rw [hget] at hmi hmj
    rcases mem_classComp.mp hmi with ⟨_, hri⟩
    rcases mem_classComp.mp hmj with ⟨_, hrj⟩
    exact reachableIn_trans (reachableIn_symm (reachFinset_sound _ hri))
      (reachFinset_sound _ hrj)
  · intro h
    rcases labelOf_mem hki with ⟨hk1, hmi⟩
    rcases componentsOf_get hk1 with ⟨hk', hget⟩
    have hmj : j ∈ (componentsOf E n)[ki] := by
      rw [hget] at hmi ⊢
      rcases mem_classComp.mp hmi with ⟨_, hri⟩
      refine mem_classComp.mpr ⟨hj, ?_⟩
      have hreps : (repsList E n)[ki] ∈ repsList E n := List.getElem_mem _
      rcases mem_repsList.mp hreps with ⟨hrlt, _⟩
      exact reachFinset_complete hrlt hwf
        (reachableIn_trans (reachFinset_sound _ hri) h)
    rw [hki, labelOf_eq_of_mem hwf hk1 hmj]

theorem labelOf_surjective {E : List (ℕ × ℕ)} {n : ℕ}
    (hwf : ∀ e ∈ E, e.1 < n ∧ e.2 < n) {k : ℕ} (hk : k < (componentsOf E n).length) :
    ∃ i, i < n ∧ labelOf E n i = some k := by
  rcases componentsOf_get hk with ⟨hk', hget⟩
  have hreps : (repsList E n)[k] ∈ repsList E n := List.getElem_mem _
  rcases mem_repsList.mp hreps with ⟨hrlt, _⟩
  refine ⟨(repsList E n)[k], hrlt, labelOf_eq_of_mem hwf hk ?_⟩
  rw [hget]
  exact mem_classComp.mpr ⟨hrlt, mem_reachFinset_self E n _⟩

/-! ## Counting components -/

theorem length_filter_range (n : ℕ) (p : ℕ → Bool) :
    ((List.range n).filter p).length = ((Finset.range n).filter (fun x => p x = true)).card := by
  induction n with
  | zero => simp
  | succ n ih =>
    rw [List.range_succ, Finset.range_succ, List.filter_append, List.length_append,
      Finset.filter_insert]
    by_cases h : p n = true
    · rw [if_pos h, Finset.card_insert_of_not_mem (by simp)]
      simp [h, ih]
    · rw [if_neg h]
      simp [h, ih]

theorem mem_repsFinset {E : List (ℕ × ℕ)} {n x : ℕ} :
    x ∈ (Finset.range n).filter (fun x => isRepB E n x = true) ↔ x ∈ repsList E n := by
  rw [Finset.mem_filter, Finset.mem_range, mem_repsList]

theorem componentsOf_length_eq_card_reps (E : List (ℕ × ℕ)) (n : ℕ) :
    (componentsOf E n).length = ((Finset.range n).filter (fun x => isRepB E n x = true)).card := by
  unfold componentsOf repsList
  rw [List.length_map]
  exact length_filter_range n _

theorem componentsOf_length_eq_card_classes (E : List (ℕ × ℕ)) (n : ℕ)
    (hwf : ∀ e ∈ E, e.1 < n ∧ e.2 < n) :
    (componentsOf E n).length = (classesOf E n).card := by
  rw [componentsOf_length_eq_card_reps]
  unfold classesOf
  have himg : (Finset.range n).image (fun x => reachFinset E n x) =
      ((Finset.range n).filter (fun x => isRepB E n x = true)).image
        (fun x => reachFinset E n x) := by
    apply Finset.Subset.antisymm
    · intro c hc
      rcases Finset.mem_image.mp hc with ⟨x, hx, hcx⟩
      have hxn : x < n := Finset.mem_range.mp hx
      rcases minRep_mem_reps hxn hwf with ⟨hmem, hre⟩
      rcases mem_repsList.mp hmem with ⟨hrlt, _⟩
      refine Finset.mem_image.mpr ⟨_, mem_repsFinset.mpr hmem, ?_⟩
      rw [← reachFinset_congr hxn hrlt hwf hre, hcx]
    · exact Finset.image_subset_image (Finset.filter_subset _ _)
  rw [himg]
  rw [Finset.card_image_of_injOn]
  intro x1 h1 x2 h2 hEq
  simp only at hEq
  have hre : reachableIn E x1 x2 := by
    have hself : x2 ∈ reachFinset E n x2 := mem_reachFinset_self E n x2
    rw [← hEq] at hself
    exact reachFinset_sound _ hself
  exact rep_unique (mem_repsFinset.mp h1) (mem_repsFinset.mp h2) hwf hre

/-! ## Monotonicity of the edge set and the component count in the tolerance -/

theorem bufferIntersectsB_mono {A B : Geom} {t1 t2 : ℚ} (h12 : t1 ≤ t2)
    (h : bufferIntersectsB A t1 B = true) : bufferIntersectsB A t2 B = true := by
  obtain ⟨ht, m, hm, hmt⟩ := bufferIntersectsB_elim h
  have ht2 : 0 < t2 := lt_of_lt_of_le ht h12
  rw [bufferIntersectsB_true_iff ht2 hm]
  nlinarith

theorem edgesOf_mono {geoms : List Geom} {t1 t2 : ℚ} (h12 : t1 ≤ t2) {e : ℕ × ℕ}
    (he : e ∈ edgesOf geoms t1) : e ∈ edgesOf geoms t2 := by
  rcases e with ⟨i, j⟩
  rcases mem_edgesOf.mp he with ⟨hi, hj, hij, _, htest⟩
  exact (mem_edgesOf_iff_test hj hij).mpr (bufferIntersectsB_mono h12 htest)

theorem reachableIn_mono {E1 E2 : List (ℕ × ℕ)} (hsub : ∀ e ∈ E1, e ∈ E2) {x y : ℕ}
    (h : reachableIn E1 x y) : reachableIn E2 x y := by
  refine Relation.ReflTransGen.mono ?_ h
  intro a b hab
  rcases hab with hab | hab
  · exact Or.inl (hsub _ hab)
  · exact Or.inr (hsub _ hab)

theorem components_count_antitone {geoms : List Geom} {t1 t2 : ℚ} (h12 : t1 ≤ t2) :
    (componentsOf (edgesOf geoms t2) geoms.length).length ≤
      (componentsOf (edgesOf geoms t1) geoms.length).length := by
  set n := geoms.length with hn
  have hwf1 : ∀ e ∈ edgesOf geoms t1, e.1 < n ∧ e.2 < n := edgesOf_wf
  have hwf2 : ∀ e ∈ edgesOf geoms t2, e.1 < n ∧ e.2 < n := edgesOf_wf
  rw [componentsOf_length_eq_card_reps, componentsOf_length_eq_card_reps]
  apply Finset.card_le_card_of_injOn
    (fun x => (reachFinset (edgesOf geoms t1) n x).min'
      ⟨x, mem_reachFinset_self (edgesOf geoms t1) n x⟩)
  · intro x hx
    have hxn : x < n := Finset.mem_range.mp (Finset.mem_of_mem_filter x hx)
    exact mem_repsFinset.mpr (minRep_mem_reps hxn hwf1).1
  · intro x1 h1 x2 h2 hEq
    have hx1n : x1 < n := Finset.mem_range.mp (Finset.mem_of_mem_filter x1 h1)
    have hx2n : x2 < n := Finset.mem_range.mp (Finset.mem_of_mem_filter x2 h2)
    have hre1 := (minRep_mem_reps (E := edgesOf geoms t1) hx1n hwf1).2
    have hre2 := (minRep_mem_reps (E := edgesOf geoms t1) hx2n hwf1).2
    simp only at hEq
    rw [hEq] at hre1
    have hre : reachableIn (edgesOf geoms t1) x1 x2 :=
      reachableIn_trans hre1 (reachableIn_symm hre2)
    have hre' : reachableIn (edgesOf geoms t2) x1 x2 :=
      reachableIn_mono (fun e he => edgesOf_mono h12 he) hre
    exact rep_unique (mem_repsFinset.mp h1) (mem_repsFinset.mp h2) hwf2 hre'

/-! ## The id-assignment loop writes each row's component index -/

theorem updateRowsFrom_length (c : List ℕ) (gid idx : ℕ) (rows : List Row) :
    (updateRowsFrom c gid idx rows).length = rows.length := by
  induction rows generalizing idx with
  | nil => rfl
  | cons r rs ih =>
    unfold updateRowsFrom
    rw [List.length_cons, List.length_cons, ih]

theorem updateRowsFrom_getElem? (c : List ℕ) (gid idx : ℕ) (rows : List Row) (i : ℕ) :
    (updateRowsFrom c gid idx rows)[i]? = rows[i]?.map
      (fun r => if idx + i ∈ c then (⟨r.geom, r.utm_epsg, r.len_mt, some gid⟩ : Row) else r) := by
  induction rows generalizing idx i with
  | nil => simp [updateRowsFrom]
  | cons r rs ih =>
    cases i with
    | zero => simp [updateRowsFrom]
    | succ i =>
      simp only [updateRowsFrom, List.getElem?_cons_succ]
      rw [ih]
      have harith : idx + 1 + i = idx + (i + 1) := by omega
      rw [harith]

theorem assignIds_length (comps : List (List ℕ)) (rows : List Row) (g : ℕ) :
    (assignIds rows comps g).length = rows.length := by
  induction comps generalizing rows g with
  | nil => rfl
  | cons c rest ih =>
    unfold assignIds
    rw [ih, updateRowsFrom_length]

theorem assignIds_getElem? (comps : List (List ℕ)) (rows : List Row) (g i : ℕ)
    (hdisj : ∀ (k1 k2 : ℕ) (h1 : k1 < comps.length) (h2 : k2 < comps.length),
      i ∈ comps[k1] → i ∈ comps[k2] → k1 = k2) :
    (assignIds rows comps g)[i]? =
      match comps.findIdx? (fun cc => decide (i ∈ cc)) with
      | some k => rows[i]?.map (fun r => ⟨r.geom, r.utm_epsg, r.len_mt, some (g + k)⟩)
      | none => rows[i]? := by
  induction comps generalizing rows g with
  | nil => simp [assignIds]
  | cons c rest ih =>
    unfold assignIds
    by_cases hc : i ∈ c
    · have hrest : rest.findIdx? (fun cc => decide (i ∈ cc)) = none := by
        rw [List.findIdx?_eq_none_iff]
        intro cc hcc
        rw [decide_eq_false_iff_not]
        intro hicc
        rcases List.mem_iff_getElem.mp hcc with ⟨k, hk, hgk⟩
        have h1 : 0 < (c :: rest).length := by simp
        have h2 : k + 1 < (c :: rest).length := by
          rw [List.length_cons]
          omega
        have : (0 : ℕ) = k + 1 := by
          refine hdisj 0 (k + 1) h1 h2 ?_ ?_
          · exact hc
          · rw [List.getElem_cons_succ, hgk]
            exact hicc
        omega
      have hmain : (assignIds (updateRowsFrom c g 0 rows) rest (g + 1))[i]? =
          (updateRowsFrom c g 0 rows)[i]? := by
        rw [ih (updateRowsFrom c g 0 rows) (g + 1) ?_, hrest]
        intro k1 k2 h1 h2 hm1 hm2
        have h1' : k1 + 1 < (c :: rest).length := by
          rw [List.length_cons]
          omega
        have h2' : k2 + 1 < (c :: rest).length := by
          rw [List.length_cons]
          omega
        have := hdisj (k1 + 1) (k2 + 1) h1' h2'
          (by rw [List.getElem_cons_succ]; exact hm1)
          (by rw [List.getElem_cons_succ]; exact hm2)
        omega
      rw [hmain, updateRowsFrom_getElem?]
      have hfind : (c :: rest).findIdx? (fun cc => decide (i ∈ cc)) = some 0 := by
        rw [List.findIdx?_cons]
        simp [hc]
      rw [hfind]
      simp only [Nat.zero_add, hc, Nat.add_zero, if_pos]
    · have hupd : (updateRowsFrom c g 0 rows)[i]? = rows[i]? := by
        rw [updateRowsFrom_getElem?]
        have : (0 + i ∈ c) = False := by
          simp [hc]
        rcases hrow : rows[i]? with _ | r
        · rfl
        · simp [hc]
      have hdisj' : ∀ (k1 k2 : ℕ) (h1 : k1 < rest.length) (h2 : k2 < rest.length),
          i ∈ rest[k1] → i ∈ rest[k2] → k1 = k2 := by
        intro k1 k2 h1 h2 hm1 hm2
        have h1' : k1 + 1 < (c :: rest).length := by
          rw [List.length_cons]
          omega
        have h2' : k2 + 1 < (c :: rest).length := by
          rw [List.length_cons]
          omega
        have := hdisj (k1 + 1) (k2 + 1) h1' h2'
          (by rw [List.getElem_cons_succ]; exact hm1)
          (by rw [List.getElem_cons_succ]; exact hm2)
        omega
      rw [ih (updateRowsFrom c g 0 rows) (g + 1) hdisj', hupd]
      have hfind : (c :: rest).findIdx? (fun cc => decide (i ∈ cc)) =
          (rest.findIdx? (fun cc => decide (i ∈ cc))).map (· + 1) := by
        rw [List.findIdx?_cons]
        simp [hc, List.findIdx?_start_succ]
      rw [hfind]
      rcases hrf : rest.findIdx? (fun cc => decide (i ∈ cc)) with _ | k
      · rfl
      · simp only [Option.map_some']
        have harith : g + 1 + k = g + (k + 1) := by omega
        rw [harith]

/-! ## Row-wise enrichment: behaviour of the monadic map -/

theorem mapM_except_ok {α β : Type} {f : α → Except PyErr β} {l : List α} {l' : List β}
    (h : l.mapM f = .ok l') :
    l'.length = l.length ∧
      ∀ i (hi : i < l.length), ∃ b, f (l[i]) = .ok b ∧ l'[i]? = some b := by
  induction l generalizing l' with
  | nil =>
    rw [List.mapM_nil] at h
    have : l' = [] := by
      simpa [pure, Except.pure] using h.symm
    subst this
    exact ⟨rfl, by intro i hi; simp at hi⟩
  | cons a as ih =>
    rw [List.mapM_cons] at h
    rcases hfa : f a with e | b <;> rw [hfa] at h
    · simp [Bind.bind, Except.bind] at h
    · rcases hrest : as.mapM f with e | bs <;> rw [hrest] at h
      · simp [Bind.bind, Except.bind] at h
      · simp only [Bind.bind, Except.bind, pure, Except.pure] at h
        have hl' : l' = b :: bs := by
          cases h
          rfl
        subst hl'
        rcases ih hrest with ⟨hlen, hpt⟩
        refine ⟨by simp [hlen], ?_⟩
        intro i hi
        cases i with
        | zero => exact ⟨b, hfa, by simp⟩
        | succ i =>
          rcases hpt i (by simpa using hi) with ⟨bb, hbb1, hbb2⟩
          exact ⟨bb, hbb1, by simpa using hbb2⟩

theorem mapM_except_ok_of_forall {α β : Type} {f : α → Except PyErr β} {l : List α}
    (h : ∀ a ∈ l, ∃ b, f a = .ok b) : ∃ l', l.mapM f = .ok l' := by
  induction l with
  | nil => exact ⟨[], rfl⟩
  | cons a as ih =>
    rcases h a (List.mem_cons_self _ _) with ⟨b, hb⟩
    rcases ih (fun x hx => h x (List.mem_cons_of_mem a hx)) with ⟨bs, hbs⟩
    refine ⟨b :: bs, ?_⟩
    rw [List.mapM_cons, hb, hbs]
    rfl

theorem determine_ok {row : Row} {gcol : String} (h : row.geom ≠ []) :
    ∃ b, bboxOf row.geom = some b ∧
      determine_utm_and_reproject row gcol none =
        .ok (utmEpsgFor (bboxCenter b).1 (bboxCenter b).2, lengthOf row.geom) := by
  rcases bboxOf_isSome h with ⟨b, hb⟩
  refine ⟨b, hb, ?_⟩
  unfold determine_utm_and_reproject estimate_utm_crs
  rw [hb]
  rfl

theorem determine_empty {row : Row} {gcol : String} (h : row.geom = []) :
    determine_utm_and_reproject row gcol none = .error .runtimeErrorCannotEstimateUtm := by
  unfold determine_utm_and_reproject estimate_utm_crs
  rw [h]
  rfl

theorem add_utm_ok {gdf : GDF} {gcol : String} {out : GDF}
    (h : add_utm_projection_metrics gdf gcol = .ok out) :
    out.crs = gdf.crs ∧ out.rows.length = gdf.rows.length ∧
      ∀ i (hi : i < gdf.rows.length), ∃ m,
        determine_utm_and_reproject (gdf.rows[i]) gcol none = .ok m ∧
        out.rows[i]? = some ⟨(gdf.rows[i]).geom, some m.1, some m.2,
          (gdf.rows[i]).parking_id⟩ := by
  unfold add_utm_projection_metrics at h
  rcases hmm : gdf.rows.mapM (fun r => do
      let m ← determine_utm_and_reproject r gcol none
      Except.ok (⟨r.geom, some m.1, some m.2, r.parking_id⟩ : Row)) with e | rows'
  · rw [hmm] at h
    simp [Bind.bind, Except.bind] at h
  · rw [hmm] at h
    simp only [Bind.bind, Except.bind] at h
    have hout : out = ⟨rows', gdf.crs⟩ := by
      cases h
      rfl
    subst hout
    rcases mapM_except_ok hmm with ⟨hlen, hpt⟩
    refine ⟨rfl, hlen, ?_⟩
    intro i hi
    rcases hpt i hi with ⟨b, hb1, hb2⟩
    rcases hdm : determine_utm_and_reproject (gdf.rows[i]) gcol none with e | m
    · rw [hdm] at hb1
      simp [Bind.bind, Except.bind] at hb1
    · rw [hdm] at hb1
      simp only [Bind.bind, Except.bind] at hb1
      refine ⟨m, rfl, ?_⟩
      have hbval : b = ⟨(gdf.rows[i]).geom, some m.1, some m.2,
          (gdf.rows[i]).parking_id⟩ := by
        cases hb1
        rfl
      rw [hb2, hbval]

theorem add_utm_ok_of_nonempty {gdf : GDF} {gcol : String}
    (h : ∀ r ∈ gdf.rows, r.geom ≠ []) :
    ∃ out, add_utm_projection_metrics gdf gcol = .ok out := by
  unfold add_utm_projection_metrics
  have hall : ∀ r ∈ gdf.rows, ∃ b, (do
      let m ← determine_utm_and_reproject r gcol none
      Except.ok (⟨r.geom, some m.1, some m.2, r.parking_id⟩ : Row)) = Except.ok b := by
    intro r hr
    rcases @determine_ok r gcol (h r hr) with ⟨b, _, hd⟩
    refine ⟨⟨r.geom, some (utmEpsgFor (bboxCenter b).1 (bboxCenter b).2),
      some (lengthOf r.geom), r.parking_id⟩, ?_⟩
    rw [hd]
    rfl
  rcases mapM_except_ok_of_forall hall with ⟨rows', hrows'⟩
  refine ⟨⟨rows', gdf.crs⟩, ?_⟩
  rw [hrows']
  rfl

/-! ## The grouping step, assembled -/

theorem geomsOf_length (gdf : GDF) : (geomsOf gdf).length = gdf.rows.length := by
  unfold geomsOf
  rw [List.length_map]

theorem geomsOf_getElem? (gdf : GDF) (i : ℕ) :
    (geomsOf gdf)[i]? = (gdf.rows[i]?).map (fun r => r.geom) := by
  unfold geomsOf
  rw [List.getElem?_map]

theorem componentsOf_disjoint {E : List (ℕ × ℕ)} {n : ℕ}
    (hwf : ∀ e ∈ E, e.1 < n ∧ e.2 < n) (i : ℕ) :
    ∀ (k1 k2 : ℕ) (h1 : k1 < (componentsOf E n).length) (h2 : k2 < (componentsOf E n).length),
      i ∈ (componentsOf E n)[k1] → i ∈ (componentsOf E n)[k2] → k1 = k2 := by
  intro k1 k2 h1 h2 hm1 hm2
  have ha := labelOf_eq_of_mem hwf h1 hm1
  have hb := labelOf_eq_of_mem hwf h2 hm2
  rw [ha] at hb
  exact Option.some_inj.mp hb

theorem group_fst_rows (gdf : GDF) (gcol : String) (t : ℚ) :
    (group_geometries_by_proximity gdf gcol t).1.rows =
      assignIds gdf.rows (componentsOf (edgesOf (geomsOf gdf) t) (geomsOf gdf).length) 0 := rfl

theorem group_fst_crs (gdf : GDF) (gcol : String) (t : ℚ) :
    (group_geometries_by_proximity gdf gcol t).1.crs = gdf.crs := rfl

theorem group_snd (gdf : GDF) (gcol : String) (t : ℚ) :
    (group_geometries_by_proximity gdf gcol t).2 =
      [groupMessage (componentsOf (edgesOf (geomsOf gdf) t) (geomsOf gdf).length).length] := rfl

theorem group_rows_length (gdf : GDF) (gcol : String) (t : ℚ) :
    (group_geometries_by_proximity gdf gcol t).1.rows.length = gdf.rows.length := by
  rw [group_fst_rows, assignIds_length]

theorem group_parking {gdf : GDF} {gcol : String} {t : ℚ} {i : ℕ}
    (hi : i < gdf.rows.length) :
    ∃ k, labelOf (edgesOf (geomsOf gdf) t) gdf.rows.length i = some k ∧
      (group_geometries_by_proximity gdf gcol t).1.rows[i]? =
        some ⟨(gdf.rows[i]).geom, (gdf.rows[i]).utm_epsg, (gdf.rows[i]).len_mt,
          some k⟩ := by
  have hn : (geomsOf gdf).length = gdf.rows.length := geomsOf_length gdf
  have hwf : ∀ e ∈ edgesOf (geomsOf gdf) t, e.1 < gdf.rows.length ∧ e.2 < gdf.rows.length := by
    intro e he
    rcases edgesOf_wf e he with ⟨h1, h2⟩
    rw [hn] at h1 h2
    exact ⟨h1, h2⟩
  rcases labelOf_total (E := edgesOf (geomsOf gdf) t) hi hwf with ⟨k, hk, hklen⟩
  refine ⟨k, hk, ?_⟩
  rw [group_fst_rows, hn]
  rw [assignIds_getElem? _ _ _ _ (componentsOf_disjoint hwf i)]
  have hfind : (componentsOf (edgesOf (geomsOf gdf) t) gdf.rows.length).findIdx?
      (fun cc => decide (i ∈ cc)) = some k := hk
  rw [hfind]
  rw [List.getElem?_eq_getElem hi]
  simp

/-! ## The whole pipeline, assembled -/

theorem process_ok {gdf : GDF} {gcol : String} {t : ℚ} {proj : GDF}
    (h : add_utm_projection_metrics gdf gcol = .ok proj) :
    process_clustering gdf gcol t = .ok (group_geometries_by_proximity proj gcol t) := by
  unfold process_clustering
  rw [h]
  rfl

theorem process_err {gdf : GDF} {gcol : String} {t : ℚ} {e : PyErr}
    (h : add_utm_projection_metrics gdf gcol = .error e) :
    process_clustering gdf gcol t = .error e := by
  unfold process_clustering
  rw [h]
  rfl

theorem add_utm_geoms {gdf : GDF} {gcol : String} {out : GDF}
    (h : add_utm_projection_metrics gdf gcol = .ok out) : geomsOf out = geomsOf gdf := by
  rcases add_utm_ok h with ⟨_, hlen, hpt⟩
  apply List.ext_getElem?
  intro i
  rw [geomsOf_getElem?, geomsOf_getElem?]
  by_cases hi : i < gdf.rows.length
  · rcases hpt i hi with ⟨m, _, hrow⟩
    rw [hrow, List.getElem?_eq_getElem hi]
    rfl
  · have h1 : out.rows[i]? = none := List.getElem?_eq_none (by rw [hlen]; omega)
    have h2 : gdf.rows[i]? = none := List.getElem?_eq_none (by omega)
    rw [h1, h2]

/-! ## Non-positive tolerance: no edges, every node its own singleton component -/

theorem edgesOf_eq_nil_of_nonpos {geoms : List Geom} {t : ℚ} (ht : t ≤ 0) :
    edgesOf geoms t = [] := by
  rw [List.eq_nil_iff_forall_not_mem]
  rintro ⟨i, j⟩ he
  rcases mem_edgesOf.mp he with ⟨_, _, _, _, htest⟩
  exact absurd (bufferIntersectsB_elim htest).1 (not_lt.mpr ht)

theorem adjStep_nil (n : ℕ) (S : Finset ℕ) : adjStep [] n S = S := by
  unfold adjStep touchesB
  ext x
  simp

theorem reachFinset_nil (n x : ℕ) : reachFinset [] n x = {x} := by
  unfold reachFinset
  exact adjStep_fixed_iterate (adjStep_nil n _) n

theorem labelOf_nil {n i : ℕ} (hi : i < n) : labelOf [] n i = some i := by
  have hreps : repsList [] n = List.range n := by
    unfold repsList
    rw [List.filter_eq_self]
    intro a _
    rw [isRepB, decide_eq_true_eq]
    intro y hy
    rw [reachFinset_nil, Finset.mem_singleton] at hy
    omega
  have hlen : (componentsOf [] n).length = n := by
    unfold componentsOf
    rw [List.length_map, hreps, List.length_range]
  have hcomp : i < (componentsOf [] n).length := by omega
  refine labelOf_eq_of_mem (by simp) hcomp ?_
  rcases componentsOf_get hcomp with ⟨hk', hget⟩
  rw [hget]
  have hrv : (repsList [] n)[i] = i := by
    have h2 := List.getElem_of_eq hreps hk'
    rw [h2, List.getElem_range]
  rw [hrv]
  exact mem_classComp.mpr ⟨hi, by rw [reachFinset_nil]; exact Finset.mem_singleton_self i⟩

/-! ## The claims -/

/-- **C8.** Refuted as stated — a divergence of the code from the spec's
Scenario D, which promises that an empty input sequence yields an empty
output, a cluster count of 0 and no error. The enrichment step's two-column
pandas expand assignment (line 119) on a zero-row frame raises
`ValueError("Columns must be same length as key")` whenever the frame does
not happen to have exactly two columns: on the minimal empty frame (its
geometry column only, `ncols = 1`) the pipeline errors instead of returning
an empty clustering. -/
theorem claim_C8 (gcol : String) (t : ℚ) (c : Option String) :
    process_clustering_expand 1 ⟨[], c⟩ gcol t =
      .error PyErr.valueErrorColumnsMismatch := rfl

/-- **C9.** When no source coordinate-system identifier is supplied,
`build_geodataframe` fails fast — before looking at the data at all — with the
`ValueError` that realises the spec's `ConfigurationError` for a missing
coordinate system. -/
theorem claim_C9 (df : DFInput) (geometry_column_name : String) :
    build_geodataframe df geometry_column_name none = .error PyErr.valueErrorCrsRequired := rfl

/-- **C10.** The enrichment step treats the source CRS as `EPSG:4326`
unconditionally: `add_utm_projection_metrics` passes no CRS to
`determine_utm_and_reproject` (so the declared CRS of the GeoDataFrame never
influences the computed rows), the `None` default is exactly the
`"EPSG:4326"` interpretation, and the per-row result is the WGS84
zone-estimation and length computation. -/
theorem claim_C10 :
    (∀ (rows : List Row) (gcol : String) (c1 c2 : Option String),
      (add_utm_projection_metrics ⟨rows, c1⟩ gcol).map (fun g => g.rows) =
        (add_utm_projection_metrics ⟨rows, c2⟩ gcol).map (fun g => g.rows)) ∧
    (∀ (row : Row) (gcol : String),
      determine_utm_and_reproject row gcol none =
        determine_utm_and_reproject row gcol (some "EPSG:4326")) ∧
    (∀ (row : Row) (gcol : String),
      determine_utm_and_reproject row gcol none =
        (estimate_utm_crs "EPSG:4326" row.geom).bind fun epsg =>
          (to_crs "EPSG:4326" epsg row.geom).map fun rp => (epsg, lengthOf rp)) := by
  refine ⟨?_, fun row gcol => rfl, ?_⟩
  · intro rows gcol c1 c2
    have hred : ∀ c : Option String, add_utm_projection_metrics ⟨rows, c⟩ gcol =
        (rows.mapM (fun r => do
          let m ← determine_utm_and_reproject r gcol none
          Except.ok (⟨r.geom, some m.1, some m.2, r.parking_id⟩ : Row))).bind
          (fun rows' => .ok ⟨rows', c⟩) := fun c => rfl
    rw [hred c1, hred c2]
    rcases h : rows.mapM (fun r => do
        let m ← determine_utm_and_reproject r gcol none
        Except.ok (⟨r.geom, some m.1, some m.2, r.parking_id⟩ : Row)) with e | rows' <;>
      rw [h] <;> rfl
  · intro row gcol
    have hred : determine_utm_and_reproject row gcol none =
        (estimate_utm_crs "EPSG:4326" row.geom).bind (fun epsg =>
          (to_crs "EPSG:4326" epsg row.geom).bind (fun reproj =>
            Except.ok (epsg, lengthOf reproj))) := rfl
    rw [hred]
    rcases h : estimate_utm_crs "EPSG:4326" row.geom with e | epsg <;> rfl

/-- **C1.** The labelling step assigns every record exactly one cluster id:
the output has one row per input row; row `i` carries `parking_id = some k`
where `some k` is the (unique) label of node `i`; two rows share a label
exactly when they are connected in the proximity graph (so the label groups
are the connected components and partition the ids — no id in two groups, no
id omitted); every label below the component count is used; and the number of
enumerated components is exactly the number of reachability classes. -/
theorem claim_C1 (gdf : GDF) (gcol : String) (t : ℚ) :
    (group_geometries_by_proximity gdf gcol t).1.rows.length = gdf.rows.length ∧
    (∀ i, i < gdf.rows.length → ∃ k,
      labelOf (edgesOf (geomsOf gdf) t) gdf.rows.length i = some k ∧
      k < (componentsOf (edgesOf (geomsOf gdf) t) gdf.rows.length).length ∧
      ((group_geometries_by_proximity gdf gcol t).1.rows[i]?).map (fun r => r.parking_id) =
        some (some k)) ∧
    (∀ i j, i < gdf.rows.length → j < gdf.rows.length →
      (labelOf (edgesOf (geomsOf gdf) t) gdf.rows.length i =
        labelOf (edgesOf (geomsOf gdf) t) gdf.rows.length j ↔
        reachableIn (edgesOf (geomsOf gdf) t) i j)) ∧
    (∀ k, k < (componentsOf (edgesOf (geomsOf gdf) t) gdf.rows.length).length →
      ∃ i, i < gdf.rows.length ∧
        labelOf (edgesOf (geomsOf gdf) t) gdf.rows.length i = some k) ∧
    (componentsOf (edgesOf (geomsOf gdf) t) gdf.rows.length).length =
      (classesOf (edgesOf (geomsOf gdf) t) gdf.rows.length).card := by
  have hn : (geomsOf gdf).length = gdf.rows.length := geomsOf_length gdf
  have hwf : ∀ e ∈ edgesOf (geomsOf gdf) t,
      e.1 < gdf.rows.length ∧ e.2 < gdf.rows.length := by
    intro e he
    rcases edgesOf_wf e he with ⟨h1, h2⟩
    rw [hn] at h1 h2
    exact ⟨h1, h2⟩
  refine ⟨group_rows_length gdf gcol t, ?_, ?_, ?_, ?_⟩
  · intro i hi
    rcases @group_parking gdf gcol t i hi with ⟨k, hk, hrow⟩
    refine ⟨k, hk, labelOf_lt hi hwf hk, ?_⟩
    rw [hrow]
    rfl
  · intro i j hi hj
    exact labelOf_iff_reachable hi hj hwf
  · intro k hk
    exact labelOf_surjective hwf hk
  · exact componentsOf_length_eq_card_classes _ _ hwf

/-- **C1 witness**: on a two-record GeoDataFrame at tolerance 1, row 0 gets a
cluster id below the component count. -/
theorem claim_C1_witness :
    0 < (⟨[⟨[((0:ℚ),(0:ℚ))], none, none, none⟩, ⟨[((9:ℚ),(9:ℚ))], none, none, none⟩],
        some "EPSG:4326"⟩ : GDF).rows.length ∧
      ∃ k, labelOf
          (edgesOf (geomsOf ⟨[⟨[((0:ℚ),(0:ℚ))], none, none, none⟩,
            ⟨[((9:ℚ),(9:ℚ))], none, none, none⟩], some "EPSG:4326"⟩) 1) 2 0 = some k ∧
        k < (componentsOf (edgesOf (geomsOf ⟨[⟨[((0:ℚ),(0:ℚ))], none, none, none⟩,
            ⟨[((9:ℚ),(9:ℚ))], none, none, none⟩], some "EPSG:4326"⟩) 1) 2).length ∧
        (((group_geometries_by_proximity ⟨[⟨[((0:ℚ),(0:ℚ))], none, none, none⟩,
            ⟨[((9:ℚ),(9:ℚ))], none, none, none⟩], some "EPSG:4326"⟩ "geometry" 1).1.rows[0]?).map
              (fun r => r.parking_id)) = some (some k) :=
  ⟨by decide,
    (claim_C1 ⟨[⟨[((0:ℚ),(0:ℚ))], none, none, none⟩, ⟨[((9:ℚ),(9:ℚ))], none, none, none⟩],
      some "EPSG:4326"⟩ "geometry" 1).2.1 0 (by decide)⟩

/-- **C3.** The edge-building loop never pairs a record with itself, emits
only strictly increasing pairs (so each unordered pair is considered at most
once), and — because the coarse spatial-index filter loses no pair the exact
test accepts — an increasing pair is an edge exactly when the dilation test
passes; such a pair produces exactly one edge and its reversal never
appears. -/
theorem claim_C3 (geoms : List Geom) (t : ℚ) :
    (∀ i, (i, i) ∉ edgesOf geoms t) ∧
    (∀ e ∈ edgesOf geoms t, e.1 < e.2) ∧
    (∀ i j, i < j → j < geoms.length →
      ((i, j) ∈ edgesOf geoms t ↔
        bufferIntersectsB (geoms.getD i []) t (geoms.getD j []) = true)) ∧
    (∀ i j, (i, j) ∈ edgesOf geoms t →
      ((edgesOf geoms t).filter (fun e => decide (e = (i, j)))).length = 1 ∧
        (j, i) ∉ edgesOf geoms t) := by
  refine ⟨?_, ?_, ?_, ?_⟩
  · intro i hmem
    have := (edgesOf_increasing hmem).1
    omega
  · intro e he
    exact (edgesOf_increasing he).1
  · intro i j hij hj
    exact mem_edgesOf_iff_test hj hij
  · intro i j hmem
    have hc : @List.count (ℕ × ℕ) instBEqOfDecidableEq (i, j) (edgesOf geoms t) = 1 :=
      List.count_eq_one_of_mem (edgesOf_nodup geoms t) hmem
    refine ⟨Eq.trans (Eq.symm
      (@List.countP_eq_length_filter (ℕ × ℕ) (fun e => decide (e = (i, j)))
        (edgesOf geoms t))) hc, ?_⟩
    intro hrev
    have h1 := (edgesOf_increasing hmem).1
    have h2 := (edgesOf_increasing hrev).1
    simp only at h1 h2
    omega

/-- **C3 witness**: concretely, on two coincident point records at tolerance
1, `(0, 0)` is never an edge and the pair `(0, 1)` is an edge exactly when
the dilation test accepts it. -/
theorem claim_C3_witness :
    ((0, 0) ∉ edgesOf [[((0:ℚ),(0:ℚ))], [((0:ℚ),(0:ℚ))]] 1) ∧
      ((0, 1) ∈ edgesOf [[((0:ℚ),(0:ℚ))], [((0:ℚ),(0:ℚ))]] 1 ↔
        bufferIntersectsB ([[((0:ℚ),(0:ℚ))], [((0:ℚ),(0:ℚ))]].getD 0 []) 1
          ([[((0:ℚ),(0:ℚ))], [((0:ℚ),(0:ℚ))]].getD 1 []) = true) :=
  ⟨(claim_C3 [[((0:ℚ),(0:ℚ))], [((0:ℚ),(0:ℚ))]] 1).1 0,
    (claim_C3 [[((0:ℚ),(0:ℚ))], [((0:ℚ),(0:ℚ))]] 1).2.2.1 0 1 (by decide) (by decide)⟩

/-- **C7.** For a fixed geometry set, the number of clusters is antitone in
the tolerance, and raising the tolerance only coarsens the partition: rows
sharing a `parking_id` at tolerance `t1` still share one at any `t2 ≥ t1`. -/
theorem claim_C7 (gdf : GDF) (gcol : String) (t1 t2 : ℚ) (h12 : t1 ≤ t2) :
    numberOfGroups gdf t2 ≤ numberOfGroups gdf t1 ∧
    (∀ i j, i < gdf.rows.length → j < gdf.rows.length →
      ((group_geometries_by_proximity gdf gcol t1).1.rows[i]?).map (fun r => r.parking_id) =
        ((group_geometries_by_proximity gdf gcol t1).1.rows[j]?).map (fun r => r.parking_id) →
      ((group_geometries_by_proximity gdf gcol t2).1.rows[i]?).map (fun r => r.parking_id) =
        ((group_geometries_by_proximity gdf gcol t2).1.rows[j]?).map (fun r => r.parking_id)) := by
  have hn : (geomsOf gdf).length = gdf.rows.length := geomsOf_length gdf
  have hwf1 : ∀ e ∈ edgesOf (geomsOf gdf) t1,
      e.1 < gdf.rows.length ∧ e.2 < gdf.rows.length := by
    intro e he
    rcases edgesOf_wf e he with ⟨h1, h2⟩
    rw [hn] at h1 h2
    exact ⟨h1, h2⟩
  have hwf2 : ∀ e ∈ edgesOf (geomsOf gdf) t2,
      e.1 < gdf.rows.length ∧ e.2 < gdf.rows.length := by
    intro e he
    rcases edgesOf_wf e he with ⟨h1, h2⟩
    rw [hn] at h1 h2
    exact ⟨h1, h2⟩
  constructor
  · exact components_count_antitone h12
  · intro i j hi hj h
    rcases @group_parking gdf gcol t1 i hi with ⟨k1, hl1, hrow1i⟩
    rcases @group_parking gdf gcol t1 j hj with ⟨k1', hl1', hrow1j⟩
    rw [hrow1i, hrow1j] at h
    simp only [Option.map_some'] at h
    have hkk : k1 = k1' := by
      cases h
      rfl
    subst hkk
    have hlab1 : labelOf (edgesOf (geomsOf gdf) t1) gdf.rows.length i =
        labelOf (edgesOf (geomsOf gdf) t1) gdf.rows.length j := by
      rw [hl1, hl1']
    have hre1 := (labelOf_iff_reachable hi hj hwf1).mp hlab1
    have hre2 : reachableIn (edgesOf (geomsOf gdf) t2) i j :=
      reachableIn_mono (fun e he => edgesOf_mono h12 he) hre1
    have hlab2 := (labelOf_iff_reachable hi hj hwf2).mpr hre2
    rcases @group_parking gdf gcol t2 i hi with ⟨k2, hl2, hrow2i⟩
    rcases @group_parking gdf gcol t2 j hj with ⟨k2', hl2', hrow2j⟩
    rw [hrow2i, hrow2j]
    rw [hl2, hl2'] at hlab2
    have : k2 = k2' := by
      cases hlab2
      rfl
    subst this
    rfl

/-- **C7 witness**: on a one-record GeoDataFrame the group count at tolerance
2 is at most the group count at tolerance 1. -/
theorem claim_C7_witness :
    numberOfGroups ⟨[⟨[((0:ℚ),(0:ℚ))], none, none, none⟩], some "EPSG:4326"⟩ 2 ≤
      numberOfGroups ⟨[⟨[((0:ℚ),(0:ℚ))], none, none, none⟩], some "EPSG:4326"⟩ 1 :=
  (claim_C7 ⟨[⟨[((0:ℚ),(0:ℚ))], none, none, none⟩], some "EPSG:4326"⟩ "geometry" 1 2
    (by norm_num)).1

theorem getD_of_lt (l : List Geom) (i : ℕ) (hi : i < l.length) :
    l.getD i [] = l[i] := by
  rw [List.getD_eq_getElem?_getD, List.getElem?_eq_getElem hi]
  rfl

/-- **C2.** For every pair of distinct (nonempty) geometries in the input and
every positive tolerance, the graph builder has an edge between them exactly
when their minimum separation is at most the tolerance; and the dilation test
itself is symmetric — dilating either member of the pair gives the same
answer, on all inputs. -/
theorem claim_C2 :
    (∀ (geoms : List Geom) (t : ℚ) (i j : ℕ) (hi : i < geoms.length) (hj : j < geoms.length),
      0 < t → i ≠ j → geoms[i] ≠ [] → geoms[j] ≠ [] →
      (hasEdge (edgesOf geoms t) i j ↔
        minSeparation (geoms[i]) (geoms[j]) ≤ ((t : ℚ) : ℝ))) ∧
    (∀ (A B : Geom) (t : ℚ), bufferIntersectsB A t B = bufferIntersectsB B t A) := by
  constructor
  · intro geoms t i j hi hj ht hij hgi hgj
    rcases lt_trichotomy i j with hlt | heq | hgt
    · have hrev : (j, i) ∉ edgesOf geoms t := by
        intro hmem
        have := (edgesOf_increasing hmem).1
        simp only at this
        omega
      have hiff : hasEdge (edgesOf geoms t) i j ↔ (i, j) ∈ edgesOf geoms t := by
        unfold hasEdge
        constructor
        · intro h
          rcases h with h | h
          · exact h
          · exact absurd h hrev
        · exact Or.inl
      rw [hiff, mem_edgesOf_iff_test hj hlt, getD_of_lt geoms i hi, getD_of_lt geoms j hj]
      exact bufferIntersects_iff_minSep _ _ hgi hgj t ht
    · exact absurd heq hij
    · have hrev : (i, j) ∉ edgesOf geoms t := by
        intro hmem
        have := (edgesOf_increasing hmem).1
        simp only at this
        omega
      have hiff : hasEdge (edgesOf geoms t) i j ↔ (j, i) ∈ edgesOf geoms t := by
        unfold hasEdge
        constructor
        · intro h
          rcases h with h | h
          · exact absurd h hrev
          · exact h
        · exact Or.inr
      rw [hiff, mem_edgesOf_iff_test hi hgt, getD_of_lt geoms j hj, getD_of_lt geoms i hi]
      rw [bufferIntersects_iff_minSep _ _ hgj hgi t ht, minSeparation_comm]
  · intro A B t
    exact bufferIntersectsB_comm A B t

/-- **C2 witness**: for the two point geometries `(0,0)` and `(3,0)` at
tolerance 1, the theorem applies: the edge exists iff their minimum
separation is at most 1. -/
theorem claim_C2_witness :
    (0 : ℚ) < 1 ∧
      (hasEdge (edgesOf [[((0:ℚ),(0:ℚ))], [((3:ℚ),(0:ℚ))]] 1) 0 1 ↔
        minSeparation [((0:ℚ),(0:ℚ))] [((3:ℚ),(0:ℚ))] ≤ ((1 : ℚ) : ℝ)) :=
  ⟨by norm_num,
    claim_C2.1 [[((0:ℚ),(0:ℚ))], [((3:ℚ),(0:ℚ))]] 1 0 1 (by decide) (by decide)
      (by norm_num) (by decide) (by decide) (by decide)⟩

/-- **C4 counterexample.** The claim says `process_clustering` fails with a
configuration error for every tolerance ≤ 0 and never returns a clustering.
In fact no tolerance validation exists anywhere in the pipeline: at tolerance
0 on a one-record input it runs to completion and returns a labelled
clustering. -/
theorem claim_C4_counterexample :
    process_clustering ⟨[⟨[((0:ℚ),(0:ℚ))], none, none, none⟩], some "EPSG:4326"⟩ "geometry" 0 =
      .ok (⟨[⟨[(0,0)], some (utmEpsgFor 0 0), some (lengthOf [((0:ℚ),(0:ℚ))]), some 0⟩],
            some "EPSG:4326"⟩,
        ["Analysis completed: It was detected 1 unique groups."]) := by
  with_unfolding_all rfl

/-- **C4 amended.** `process_clustering` performs no tolerance validation and
defines no configuration error: for any tolerance ≤ 0 (and any input whose
geometries are nonempty, so that enrichment succeeds) it returns a normal
clustering in which the buffer of every geometry is empty, no edges are
found, and every record becomes its own singleton cluster, labelled by its
own index. -/
theorem claim_C4_amended (gdf : GDF) (gcol : String) (t : ℚ) (ht : t ≤ 0)
    (hg : ∀ r ∈ gdf.rows, r.geom ≠ []) :
    ∃ out : GDF × List String, process_clustering gdf gcol t = .ok out ∧
      out.1.rows.length = gdf.rows.length ∧
      ∀ i, i < gdf.rows.length →
        (out.1.rows[i]?).map (fun r => r.parking_id) = some (some i) := by
  rcases @add_utm_ok_of_nonempty gdf gcol hg with ⟨proj, hproj⟩
  have hlen : proj.rows.length = gdf.rows.length := (add_utm_ok hproj).2.1
  refine ⟨group_geometries_by_proximity proj gcol t, process_ok hproj, ?_, ?_⟩
  · rw [group_rows_length]
    exact hlen
  · intro i hi
    have hi' : i < proj.rows.length := by omega
    rcases @group_parking proj gcol t i hi' with ⟨k, hk, hrow⟩
    have hE : edgesOf (geomsOf proj) t = [] := edgesOf_eq_nil_of_nonpos ht
    rw [hE, labelOf_nil hi'] at hk
    have hki : k = i := (Option.some_inj.mp hk).symm
    subst hki
    rw [hrow]
    rfl

/-- **C4 witness**: at tolerance `-1` on a concrete one-record input the
amended statement applies. -/
theorem claim_C4_witness :
    ∃ out : GDF × List String,
      process_clustering ⟨[⟨[((2:ℚ),(3:ℚ))], none, none, none⟩], some "EPSG:4326"⟩
        "geometry" (-1) = .ok out ∧
      out.1.rows.length =
        (⟨[⟨[((2:ℚ),(3:ℚ))], none, none, none⟩], some "EPSG:4326"⟩ : GDF).rows.length ∧
      ∀ i, i < (⟨[⟨[((2:ℚ),(3:ℚ))], none, none, none⟩], some "EPSG:4326"⟩ : GDF).rows.length →
        (out.1.rows[i]?).map (fun r => r.parking_id) = some (some i) :=
  claim_C4_amended ⟨[⟨[((2:ℚ),(3:ℚ))], none, none, none⟩], some "EPSG:4326"⟩ "geometry" (-1)
    (by norm_num) (by decide)

/-- **C5 counterexample.** The claim says the pipeline's return value carries
the discovered cluster count as a structured result. In fact the return value
is exactly the labelled GeoDataFrame; the count appears only inside the text
of the printed diagnostic line. -/
theorem claim_C5_counterexample :
    process_clustering ⟨[⟨[((1:ℚ),(1:ℚ))], none, none, none⟩], some "EPSG:4326"⟩ "geometry" 1 =
      .ok (⟨[⟨[(1,1)], some (utmEpsgFor 1 1), some (lengthOf [((1:ℚ),(1:ℚ))]), some 0⟩],
            some "EPSG:4326"⟩,
        ["Analysis completed: It was detected 1 unique groups."]) := by
  with_unfolding_all rfl

/-- **C5 amended.** On success the pipeline returns only the labelled
GeoDataFrame; the cluster count is observable solely through the diagnostic
print line (whose text carries the count), not as a structured result
field. -/
theorem claim_C5_amended (gdf : GDF) (gcol : String) (t : ℚ) (p : GDF × List String)
    (h : process_clustering gdf gcol t = .ok p) :
    p.2 = [groupMessage (numberOfGroups gdf t)] ∧ p.1.rows.length = gdf.rows.length := by
  rcases hau : add_utm_projection_metrics gdf gcol with e | proj
  · rw [process_err hau] at h
    simp at h
  · rw [process_ok hau] at h
    injection h with h'
    subst h'
    constructor
    · rw [group_snd, add_utm_geoms hau]
      rfl
    · rw [group_rows_length]
      exact (add_utm_ok hau).2.1

/-- **C5 witness**: the amended statement applied to a concrete run. -/
theorem claim_C5_witness :
    ((⟨[⟨[(2,2)], some (utmEpsgFor 2 2), some (lengthOf [((2:ℚ),(2:ℚ))]), some 0⟩],
        some "EPSG:4326"⟩ : GDF),
      ["Analysis completed: It was detected 1 unique groups."]).2 =
      [groupMessage (numberOfGroups
        ⟨[⟨[((2:ℚ),(2:ℚ))], none, none, none⟩], some "EPSG:4326"⟩ 1)] ∧
    ((⟨[⟨[(2,2)], some (utmEpsgFor 2 2), some (lengthOf [((2:ℚ),(2:ℚ))]), some 0⟩],
        some "EPSG:4326"⟩ : GDF),
      ["Analysis completed: It was detected 1 unique groups."]).1.rows.length =
      (⟨[⟨[((2:ℚ),(2:ℚ))], none, none, none⟩], some "EPSG:4326"⟩ : GDF).rows.length :=
  claim_C5_amended ⟨[⟨[((2:ℚ),(2:ℚ))], none, none, none⟩], some "EPSG:4326"⟩ "geometry" 1
    (⟨[⟨[(2,2)], some (utmEpsgFor 2 2), some (lengthOf [((2:ℚ),(2:ℚ))]), some 0⟩],
        some "EPSG:4326"⟩,
      ["Analysis completed: It was detected 1 unique groups."])
    (by with_unfolding_all rfl)

/-- **C6 counterexample.** The claim says a geometry with fewer than 2
vertices makes the enrichment step raise `InvalidGeometryError`. In fact no
such validation (or error type) exists: a single-point geometry is enriched
successfully, receiving a UTM zone from its own coordinates and length 0. -/
theorem claim_C6_counterexample :
    determine_utm_and_reproject ⟨[((0:ℚ),(0:ℚ))], none, none, none⟩ "geometry" none =
        .ok (utmEpsgFor 0 0, lengthOf [((0:ℚ),(0:ℚ))]) ∧
      utmEpsgFor 0 0 = 32631 ∧ lengthOf [((0:ℚ),(0:ℚ))] = 0 :=
  ⟨by with_unfolding_all rfl, by norm_num [utmEpsgFor, utmZone], by simp [lengthOf]⟩

/-- **C6 amended.** The enrichment step performs no vertex-count validation:
a single-point geometry is processed successfully (zone from its own
coordinates, length 0); only an empty geometry fails, and then with the
geodesy engine's cannot-estimate error, not a dedicated geometry-validation
error. -/
theorem claim_C6_amended (row : Row) (gcol : String) :
    (∀ p : Pt, row.geom = [p] →
      determine_utm_and_reproject row gcol none = .ok (utmEpsgFor p.1 p.2, 0)) ∧
    (row.geom = [] →
      determine_utm_and_reproject row gcol none =
        .error PyErr.runtimeErrorCannotEstimateUtm) := by
  constructor
  · intro p hp
    rcases @determine_ok row gcol (by rw [hp]; simp) with ⟨b, hb, hd⟩
    have hb2 : b = ⟨p.1, p.2, p.1, p.2⟩ := by
      rw [hp] at hb
      have hlit : bboxOf [p] = some ⟨p.1, p.2, p.1, p.2⟩ := rfl
      rw [hlit] at hb
      exact (Option.some_inj.mp hb).symm
    rw [hd, hp, hb2]
    have hcent : bboxCenter (⟨p.1, p.2, p.1, p.2⟩ : BoxQ) = (p.1, p.2) := by
      unfold bboxCenter
      rw [Prod.mk.injEq]
      constructor <;> ring
    rw [hcent]
    have h3 : lengthOf [p] = 0 := by simp [lengthOf]
    rw [h3]
  · intro hp
    exact determine_empty hp

/-- **C6 witness**: a concrete single-point record is enriched successfully
with length 0. -/
theorem claim_C6_witness :
    determine_utm_and_reproject ⟨[((5:ℚ),(7:ℚ))], none, none, none⟩ "geometry" none =
      .ok (utmEpsgFor 5 7, 0) :=
  (claim_C6_amended ⟨[((5:ℚ),(7:ℚ))], none, none, none⟩ "geometry").1 ((5:ℚ),(7:ℚ)) rfl
